import Mathlib

/-!
# Verification of the SpecFW-AL spectral-bundle SDP solver

Shallow embedding, over `ℚ`, of the solver components of the repository
(`src/solver/specbm.py`, `src/solver.py`, `src/utils/ecc_helpers.py`,
`src/scripts/warm_start_qap_specbm.py`), together with proofs and refutations
of the specification claims about them.

Modelling conventions used throughout:

* JAX / NumPy floating-point scalars are modelled as rationals (`ℚ`); decimal
  literals such as `1e-6` are modelled by the exact rational `1/1000000`.
* Library numerical routines with no exact rational counterpart
  (`jnp.linalg.eigh`, square roots inside `jnp.linalg.norm`, `np.log`,
  `np.linalg.pinv`) are taken as explicit function parameters ("oracles") of
  the embedded definitions; theorems state the hypotheses they need about
  them (for example orthogonality of the eigenvector matrix).  Division by
  zero follows Lean's `x / 0 = 0` convention; the spots where NumPy would
  instead produce `inf`/`nan` are noted in comments.
* `jax.lax.while_loop` / `equinox bounded_while_loop` are modelled by the
  fuel-bounded combinator `boundedWhileLoop` below, instrumented to also
  return the number of executed iterations.
-/

namespace SpecFW

/-! ## Bounded while loop

Model of `equinox.internal._loop.bounded.bounded_while_loop(cond, body, init,
max_steps)` (used by `solve_subproblem` in `src/solver/specbm.py`) and of
`jax.lax.while_loop` whenever the loop condition enforces an iteration cap
(as in `src/solver.py`).  The second component of the result counts how many
times `body` was executed. -/
def boundedWhileLoop {σ : Type*} (cond : σ → Bool) (body : σ → σ) :
    ℕ → σ → σ × ℕ
  | 0, s => (s, 0)
  | fuel + 1, s =>
    if cond s then
      let r := boundedWhileLoop cond body fuel (body s)
      (r.1, r.2 + 1)
    else
      (s, 0)

theorem boundedWhileLoop_steps_le {σ : Type*} (cond : σ → Bool) (body : σ → σ)
    (fuel : ℕ) (s : σ) : (boundedWhileLoop cond body fuel s).2 ≤ fuel := by
  induction fuel generalizing s with
  | zero => simp [boundedWhileLoop]
  | succ n ih =>
    rw [boundedWhileLoop]
    split
    · exact Nat.succ_le_succ (ih (body s))
    · exact Nat.zero_le _

/-- If the loop stops before exhausting its fuel then the condition is false
at the final state. -/
theorem boundedWhileLoop_cond_of_lt {σ : Type*} (cond : σ → Bool) (body : σ → σ)
    (fuel : ℕ) (s : σ)
    (h : (boundedWhileLoop cond body fuel s).2 < fuel) :
    cond (boundedWhileLoop cond body fuel s).1 = false := by
  induction fuel generalizing s with
  | zero => omega
  | succ n ih =>
    rw [boundedWhileLoop] at h ⊢
    by_cases hc : cond s
    · simp only [hc, if_true] at h ⊢
      exact ih (body s) (by omega)
    · simp only [if_neg hc]
      simpa using hc

/-- Any property preserved by one loop body application (from any state) holds
at the final state provided it holds initially. -/
theorem boundedWhileLoop_invariant {σ : Type*} (cond : σ → Bool) (body : σ → σ)
    (P : σ → Prop) (fuel : ℕ) (s : σ) (h0 : P s)
    (hstep : ∀ t, cond t = true → P (body t)) :
    P (boundedWhileLoop cond body fuel s).1 := by
  induction fuel generalizing s with
  | zero => simpa [boundedWhileLoop]
  | succ n ih =>
    rw [boundedWhileLoop]
    by_cases hc : cond s
    · simp only [hc, if_true]
      exact ih (body s) (hstep s hc)
    · simpa [hc]

/-- If every body application advances a counter by one, the counter at the
final state is the initial counter plus the number of executed steps. -/
theorem boundedWhileLoop_counter {σ : Type*} (cond : σ → Bool) (body : σ → σ)
    (f : σ → ℕ) (fuel : ℕ) (s : σ)
    (hstep : ∀ t, f (body t) = f t + 1) :
    f (boundedWhileLoop cond body fuel s).1 =
      f s + (boundedWhileLoop cond body fuel s).2 := by
  induction fuel generalizing s with
  | zero => simp [boundedWhileLoop]
  | succ n ih =>
    rw [boundedWhileLoop]
    by_cases hc : cond s
    · simp only [hc, if_true]
      rw [ih (body s), hstep s]
      omega
    · simp [hc]

/-- If the condition holds at the start and there is fuel, at least one
iteration is executed. -/
theorem boundedWhileLoop_pos_steps {σ : Type*} (cond : σ → Bool) (body : σ → σ)
    (fuel : ℕ) (s : σ) (hf : 0 < fuel) (hc : cond s = true) :
    0 < (boundedWhileLoop cond body fuel s).2 := by
  obtain ⟨n, rfl⟩ := Nat.exists_eq_succ_of_ne_zero (Nat.pos_iff_ne_zero.mp hf)
  rw [boundedWhileLoop]
  simp [hc]

/-! ## Simplex projection

Embedding of `proj_simplex` and the fast-path test around it, from the `apgd`
body inside `solve_subproblem` (`src/solver/specbm.py`, lines 76-97). -/

/-- `jnp.flip(jnp.sort(unsorted_vals))`: sort ascending, then reverse, i.e. a
descending sort (lines 78-79). -/
def sortDesc (v : List ℚ) : List ℚ := (v.insertionSort (· ≤ ·)).reverse

/-- Entry `j` (0-based) of
`descend_vals + (1.0 / arange(1, N+1)) * (1 - cumsum(descend_vals))`
(lines 80-82); the inclusive cumulative sum at position `j` is
`(u.take (j+1)).sum`. -/
def wfun (u : List ℚ) (j : ℕ) : ℚ :=
  u.getD j 0 + (1 / (j + 1 : ℚ)) * (1 - (u.take (j + 1)).sum)

/-- `weighted_vals` as a list (lines 80-82). -/
def weightedVals (u : List ℚ) : List ℚ := (List.range u.length).map (wfun u)

/-- `jnp.sum(weighted_vals > 0)` (line 83, before the `- 1`). -/
def rhoAux (u : List ℚ) : ℕ :=
  (weightedVals u).countP (fun w => decide (0 < w))

/-- `idx = jnp.sum(weighted_vals > 0) - 1` (line 83). -/
def simplexIdx (v : List ℚ) : ℕ := rhoAux (sortDesc v) - 1

/-- `offset = weighted_vals[idx] - descend_vals[idx]` (line 84). -/
def simplexOffset (v : List ℚ) : ℚ :=
  (weightedVals (sortDesc v)).getD (simplexIdx v) 0 -
    (sortDesc v).getD (simplexIdx v) 0

/-- `proj_simplex` (lines 76-88).  Lines 85-87 add the offset to the
descending-sorted values and clip at zero
(`proj_descend_vals * (proj_descend_vals > 0)` is `max (x + offset) 0`
pointwise); line 87 then flips the clipped list back to ascending order and
gathers it at `inv_sort_indices = argsort(argsort(unsorted_vals))`, so
position `i` receives the clipped value stored at the rank of
`unsorted_vals[i]` in the ascending sort.  The value at that rank is
`unsorted_vals[i]` itself, hence the composite is the in-place map below. -/
def proj_simplex (v : List ℚ) : List ℚ :=
  v.map (fun x => max (x + simplexOffset v) 0)

/-- `no_projection_needed = logical_and(sum(trace_vals) < 1,
all(trace_vals > -1e-6))` (lines 91-92). -/
def noProjectionNeeded (v : List ℚ) : Bool :=
  decide (v.sum < 1) && v.all (fun x => decide (-(1 / 1000000 : ℚ) < x))

/-- The `lax.cond` at lines 93-97: return the input unchanged on the fast
path, otherwise project. -/
def simplexStep (v : List ℚ) : List ℚ :=
  if noProjectionNeeded v then v else proj_simplex v

/-! ### Basic access lemmas -/

theorem sortDesc_sorted (v : List ℚ) : (sortDesc v).Sorted (· ≥ ·) := by
  have h := List.sorted_insertionSort (· ≤ ·) v
  unfold sortDesc
  exact List.pairwise_reverse.mpr h

theorem sortDesc_perm (v : List ℚ) : (sortDesc v).Perm v :=
  (List.reverse_perm _).trans (List.perm_insertionSort _ v)

theorem sortDesc_length (v : List ℚ) : (sortDesc v).length = v.length :=
  (sortDesc_perm v).length_eq

theorem weightedVals_getD (u : List ℚ) {j : ℕ} (h : j < u.length) :
    (weightedVals u).getD j 0 = wfun u j := by
  have hlen : j < (weightedVals u).length := by
    simpa [weightedVals] using h
  rw [List.getD_eq_getElem _ _ hlen]
  simp [weightedVals]

theorem sorted_getD_le (u : List ℚ) (hs : u.Sorted (· ≥ ·)) {i j : ℕ}
    (hij : i ≤ j) (hj : j < u.length) : u.getD j 0 ≤ u.getD i 0 := by
  have hi : i < u.length := lt_of_le_of_lt hij hj
  rw [List.getD_eq_get _ _ hi, List.getD_eq_get _ _ hj]
  exact hs.rel_get_of_le (by exact_mod_cast hij)

theorem sum_take_eq_range_sum (u : List ℚ) {k : ℕ} (hk : k ≤ u.length) :
    (u.take k).sum = ∑ j ∈ Finset.range k, u.getD j 0 := by
  induction k with
  | zero => simp
  | succ n ih =>
    have hn : n < u.length := hk
    rw [List.sum_take_succ _ _ hn, ih (le_of_lt hn), Finset.sum_range_succ,
      List.getD_eq_getElem _ _ hn]

theorem map_getD_sum (l : List ℚ) (f : ℚ → ℚ) :
    (l.map f).sum = ∑ j ∈ Finset.range l.length, f (l.getD j 0) := by
  induction l with
  | nil => simp
  | cons x xs ih =>
    rw [List.map_cons, List.sum_cons, ih, List.length_cons,
      Finset.sum_range_succ']
    simp [List.getD_cons_succ, List.getD_cons_zero, add_comm]

theorem list_sum_eq_range_sum (l : List ℚ) :
    l.sum = ∑ j ∈ Finset.range l.length, l.getD j 0 := by
  have := map_getD_sum l id
  simpa using this

/-! ### The positive-weight prefix -/

theorem wfun_zero (u : List ℚ) (hne : u ≠ []) : wfun u 0 = 1 := by
  obtain ⟨x, xs, rfl⟩ := List.exists_cons_of_ne_nil hne
  simp [wfun]

/-- Once a weighted value is non-positive, all later ones are: the key
monotonicity fact behind the sort-and-threshold simplex projector. -/
theorem wfun_step_nonpos (u : List ℚ) (hs : u.Sorted (· ≥ ·)) {j : ℕ}
    (hj : j + 1 < u.length) (hw : wfun u j ≤ 0) : wfun u (j + 1) ≤ 0 := by
  have hjl : j < u.length := by omega
  set a := u.getD j 0 with ha
  set b := u.getD (j + 1) 0 with hb
  set S := (u.take (j + 1)).sum with hS
  have hba : b ≤ a := sorted_getD_le u hs (Nat.le_succ j) hj
  have hsum : (u.take (j + 2)).sum = S + b := by
    rw [hS, hb, show j + 2 = (j + 1) + 1 from rfl, List.sum_take_succ _ _ hj,
      List.getD_eq_getElem _ _ hj]
  have hj1 : (0 : ℚ) < (j : ℚ) + 1 := by positivity
  have hj2 : (0 : ℚ) < (j : ℚ) + 2 := by positivity
  have hkey : ((j : ℚ) + 1) * a + (1 - S) ≤ 0 := by
    have h := mul_le_mul_of_nonneg_left hw (le_of_lt hj1)
    rw [wfun] at h
    rw [← ha, ← hS] at h
    calc ((j : ℚ) + 1) * a + (1 - S)
        = ((j : ℚ) + 1) * (a + 1 / ((j : ℚ) + 1) * (1 - S)) := by
          field_simp
          ring
      _ ≤ ((j : ℚ) + 1) * 0 := h
      _ = 0 := by ring
  have hexpand : wfun u (j + 1) = (((j : ℚ) + 1) * b + (1 - S)) / ((j : ℚ) + 2) := by
    rw [wfun]
    push_cast
    rw [show j + 1 + 1 = j + 2 from rfl, hsum, ← hb]
    field_simp
    ring
  rw [hexpand]
  apply div_nonpos_of_nonpos_of_nonneg _ (le_of_lt hj2)
  have : ((j : ℚ) + 1) * b ≤ ((j : ℚ) + 1) * a :=
    mul_le_mul_of_nonneg_left hba (le_of_lt hj1)
  linarith

/-- Forward propagation of `false` for a Boolean predicate on `ℕ`. -/
theorem bool_false_propagates {N : ℕ} (q : ℕ → Bool)
    (hq : ∀ j, j + 1 < N → q j = false → q (j + 1) = false) :
    ∀ i j, i ≤ j → j < N → q i = false → q j = false := by
  intro i j hij hj hqi
  induction j, hij using Nat.le_induction with
  | base => exact hqi
  | succ n hn ih => exact hq n hj (ih (by omega))

/-- If the positions where `q` holds in `range N` form a prefix (false
propagates forward), then `q j` holds exactly for `j` below the count. -/
theorem countP_range_prefix {N : ℕ} (q : ℕ → Bool)
    (hq : ∀ j, j + 1 < N → q j = false → q (j + 1) = false) :
    ∀ j < N, (q j = true ↔ j < (List.range N).countP q) := by
  induction N with
  | zero => omega
  | succ n ih =>
    have hq' : ∀ j, j + 1 < n → q j = false → q (j + 1) = false :=
      fun j h => hq j (by omega)
    have hcount : (List.range (n + 1)).countP q =
        (List.range n).countP q + (if q n then 1 else 0) := by
      rw [List.range_succ, List.countP_append]
      simp [List.countP_cons]
    intro j hj
    by_cases hqn : q n = true
    · have hall : ∀ i < n + 1, q i = true := by
        intro i hi
        by_contra hfalse
        have : q n = false :=
          bool_false_propagates q hq i n (by omega) (by omega)
            (Bool.not_eq_true _ ▸ hfalse)
        simp [hqn] at this
      have htot : (List.range (n + 1)).countP q = n + 1 := by
        rw [List.countP_eq_length.mpr fun a ha => hall a (List.mem_range.mp ha),
          List.length_range]
      rw [htot]
      exact iff_of_true (hall j hj) hj
    · have hqnf : q n = false := Bool.not_eq_true _ ▸ hqn
      have hcn : (List.range (n + 1)).countP q = (List.range n).countP q := by
        rw [hcount, hqnf]
        simp
      rw [hcn]
      rcases Nat.lt_or_ge j n with hjn | hjn
      · exact ih hq' j hjn
      · have hj' : j = n := by omega
        rw [hj']
        have hle : (List.range n).countP q ≤ n := by
          calc (List.range n).countP q ≤ (List.range n).length :=
            List.countP_le_length _
          _ = n := List.length_range n
        exact iff_of_false (by simp [hqnf]) (by omega)

theorem rhoAux_le (u : List ℚ) : rhoAux u ≤ u.length := by
  calc rhoAux u ≤ (weightedVals u).length := List.countP_le_length _
  _ = u.length := by simp [weightedVals]

/-- Characterization of the count of positive weighted values for a sorted
list: position `j` has a positive weighted value iff `j` is below the count. -/
theorem rhoAux_spec (u : List ℚ) (hs : u.Sorted (· ≥ ·)) :
    ∀ j < u.length, (0 < wfun u j ↔ j < rhoAux u) := by
  have hrho : rhoAux u = (List.range u.length).countP
      (fun j => decide (0 < wfun u j)) := by
    rw [rhoAux, weightedVals, List.countP_map]
    rfl
  intro j hj
  rw [hrho]
  have := countP_range_prefix (N := u.length)
    (fun j => decide (0 < wfun u j)) ?_ j hj
  · constructor
    · intro h
      exact this.mp (by simpa using h)
    · intro h
      simpa using this.mpr h
  · intro i hi hfi
    have : ¬ 0 < wfun u i := by simpa using hfi
    have hle : wfun u i ≤ 0 := le_of_not_lt this
    simp only [decide_eq_false_iff_not, not_lt]
    exact wfun_step_nonpos u hs hi hle

theorem rhoAux_pos (u : List ℚ) (hs : u.Sorted (· ≥ ·)) (hne : u ≠ []) :
    0 < rhoAux u := by
  have hlen : 0 < u.length := List.length_pos.mpr hne
  exact (rhoAux_spec u hs 0 hlen).mp (by rw [wfun_zero u hne]; norm_num)

/-! ### Offset formula and sign pattern of the clipped values -/

theorem sortDesc_ne_nil (v : List ℚ) (hne : v ≠ []) : sortDesc v ≠ [] := by
  intro h
  apply hne
  have hp := sortDesc_perm v
  rw [h] at hp
  exact hp.symm.eq_nil

theorem simplexIdx_lt (v : List ℚ) (hne : v ≠ []) :
    simplexIdx v < (sortDesc v).length := by
  have hne' := sortDesc_ne_nil v hne
  have h1 := rhoAux_pos (sortDesc v) (sortDesc_sorted v) hne'
  have h2 := rhoAux_le (sortDesc v)
  have h3 : 0 < (sortDesc v).length := List.length_pos.mpr hne'
  unfold simplexIdx
  omega

theorem simplexIdx_add_one (v : List ℚ) (hne : v ≠ []) :
    simplexIdx v + 1 = rhoAux (sortDesc v) := by
  have hne' := sortDesc_ne_nil v hne
  have h1 := rhoAux_pos (sortDesc v) (sortDesc_sorted v) hne'
  unfold simplexIdx
  omega

/-- `offset = (1 - sum of the first rho sorted values) / rho` where `rho` is
the number of positive weighted values. -/
theorem simplexOffset_eq (v : List ℚ) (hne : v ≠ []) :
    simplexOffset v =
      (1 - ((sortDesc v).take (rhoAux (sortDesc v))).sum) /
        (rhoAux (sortDesc v) : ℚ) := by
  have hidx := simplexIdx_lt v hne
  have hadd := simplexIdx_add_one v hne
  rw [simplexOffset, weightedVals_getD _ hidx, wfun]
  rw [show simplexIdx v + 1 = rhoAux (sortDesc v) from hadd]
  push_cast [← hadd]
  field_simp
  ring

/-- Positions below `rho` keep a positive value after adding the offset. -/
theorem offset_pos_part (v : List ℚ) (hne : v ≠ []) {j : ℕ}
    (hj : j < rhoAux (sortDesc v)) :
    0 < (sortDesc v).getD j 0 + simplexOffset v := by
  have hidx := simplexIdx_lt v hne
  have hadd := simplexIdx_add_one v hne
  have hjidx : j ≤ simplexIdx v := by omega
  have hwpos : 0 < wfun (sortDesc v) (simplexIdx v) :=
    (rhoAux_spec (sortDesc v) (sortDesc_sorted v) (simplexIdx v) hidx).mpr
      (by omega)
  have hmono : (sortDesc v).getD (simplexIdx v) 0 ≤ (sortDesc v).getD j 0 :=
    sorted_getD_le _ (sortDesc_sorted v) hjidx hidx
  have hoff : (sortDesc v).getD (simplexIdx v) 0 + simplexOffset v =
      wfun (sortDesc v) (simplexIdx v) := by
    rw [simplexOffset, weightedVals_getD _ hidx]
    ring
  linarith

/-- Pure arithmetic core of the clipping-sign argument: if the weighted value
at position `rho` is non-positive, adding the offset to that entry gives a
non-positive result. -/
theorem offset_arith {p a s : ℚ} (hp : 0 < p)
    (h : a + 1 / (p + 1) * (1 - (s + a)) ≤ 0) : a + (1 - s) / p ≤ 0 := by
  have h1 : (0 : ℚ) < p + 1 := by linarith
  have hkey : p * a + (1 - s) ≤ 0 := by
    have h2 := mul_le_mul_of_nonneg_left h (le_of_lt h1)
    calc p * a + (1 - s)
        = (p + 1) * (a + 1 / (p + 1) * (1 - (s + a))) := by
          field_simp
          ring
      _ ≤ (p + 1) * 0 := h2
      _ = 0 := by ring
  have heq : a + (1 - s) / p = (p * a + (1 - s)) / p := by
    field_simp
    ring
  rw [heq]
  exact div_nonpos_of_nonpos_of_nonneg hkey (le_of_lt hp)

/-- Positions at or above `rho` are clipped to zero. -/
theorem offset_nonpos_part (v : List ℚ) (hne : v ≠ []) {j : ℕ}
    (hrho : rhoAux (sortDesc v) ≤ j) (hj : j < (sortDesc v).length) :
    (sortDesc v).getD j 0 + simplexOffset v ≤ 0 := by
  have hne' := sortDesc_ne_nil v hne
  have hs := sortDesc_sorted v
  have hrlt : rhoAux (sortDesc v) < (sortDesc v).length := lt_of_le_of_lt hrho hj
  have hwnp : wfun (sortDesc v) (rhoAux (sortDesc v)) ≤ 0 := by
    have hiff := rhoAux_spec (sortDesc v) hs (rhoAux (sortDesc v)) hrlt
    exact le_of_not_lt (fun hpos => lt_irrefl _ (hiff.mp hpos))
  have hmono : (sortDesc v).getD j 0 ≤ (sortDesc v).getD (rhoAux (sortDesc v)) 0 :=
    sorted_getD_le _ hs hrho hj
  have hrpos : 0 < rhoAux (sortDesc v) := rhoAux_pos _ hs hne'
  have hrq : (0 : ℚ) < (rhoAux (sortDesc v) : ℚ) := by exact_mod_cast hrpos
  have hsum : ((sortDesc v).take (rhoAux (sortDesc v) + 1)).sum =
      ((sortDesc v).take (rhoAux (sortDesc v))).sum +
        (sortDesc v).getD (rhoAux (sortDesc v)) 0 := by
    rw [List.sum_take_succ _ _ hrlt, List.getD_eq_getElem _ _ hrlt]
  rw [wfun, hsum] at hwnp
  have hrhoVal : (sortDesc v).getD (rhoAux (sortDesc v)) 0 + simplexOffset v ≤ 0 := by
    rw [simplexOffset_eq v hne]
    exact offset_arith hrq hwnp
  linarith

/-! ### Output of the projection: nonnegative entries summing to one -/

theorem proj_simplex_length (v : List ℚ) :
    (proj_simplex v).length = v.length := by
  simp [proj_simplex]

theorem proj_simplex_getD (v : List ℚ) {j : ℕ} (hj : j < v.length) :
    (proj_simplex v).getD j 0 = max (v.getD j 0 + simplexOffset v) 0 := by
  have hlen : j < (proj_simplex v).length := by rwa [proj_simplex_length]
  rw [List.getD_eq_getElem _ _ hlen, List.getD_eq_getElem _ _ hj]
  simp [proj_simplex]

theorem proj_simplex_nonneg (v : List ℚ) : ∀ a ∈ proj_simplex v, 0 ≤ a := by
  intro a ha
  obtain ⟨x, _, rfl⟩ := List.mem_map.mp ha
  exact le_max_right _ _

theorem proj_simplex_sum (v : List ℚ) (hne : v ≠ []) :
    (proj_simplex v).sum = 1 := by
  set u := sortDesc v with hu
  set rho := rhoAux u with hrho
  have hne' : u ≠ [] := sortDesc_ne_nil v hne
  have hulen : u.length = v.length := sortDesc_length v
  have hrpos : 0 < rho := rhoAux_pos u (sortDesc_sorted v) hne'
  have hrle : rho ≤ u.length := rhoAux_le u
  -- the sum over the original order equals the sum over the sorted order
  have hperm : (proj_simplex v).sum =
      (u.map (fun x => max (x + simplexOffset v) 0)).sum := by
    exact (List.Perm.sum_eq (List.Perm.map _ (sortDesc_perm v))).symm
  rw [hperm, map_getD_sum]
  -- split the range at rho
  have hsplit : ∑ j ∈ Finset.range u.length,
      max (u.getD j 0 + simplexOffset v) 0 =
      (∑ j ∈ Finset.Ico 0 rho, max (u.getD j 0 + simplexOffset v) 0) +
      ∑ j ∈ Finset.Ico rho u.length, max (u.getD j 0 + simplexOffset v) 0 := by
    rw [Finset.range_eq_Ico,
      ← Finset.sum_Ico_consecutive _ (Nat.zero_le rho) hrle]
  rw [hsplit]
  have hzero : ∑ j ∈ Finset.Ico rho u.length,
      max (u.getD j 0 + simplexOffset v) 0 = 0 := by
    apply Finset.sum_eq_zero
    intro j hjmem
    obtain ⟨hj1, hj2⟩ := Finset.mem_Ico.mp hjmem
    rw [max_eq_right (offset_nonpos_part v hne (hu ▸ hrho ▸ hj1) (hu ▸ hj2))]
  have hpos : ∑ j ∈ Finset.Ico 0 rho,
      max (u.getD j 0 + simplexOffset v) 0 =
      ∑ j ∈ Finset.range rho, (u.getD j 0 + simplexOffset v) := by
    rw [← Finset.range_eq_Ico]
    apply Finset.sum_congr rfl
    intro j hjmem
    rw [max_eq_left (le_of_lt (offset_pos_part v hne
      (hu ▸ hrho ▸ Finset.mem_range.mp hjmem)))]
  rw [hzero, hpos, add_zero, Finset.sum_add_distrib, Finset.sum_const,
    Finset.card_range, ← sum_take_eq_range_sum u hrle,
    simplexOffset_eq v hne, ← hu, ← hrho]
  have hrq : ((rho : ℚ)) ≠ 0 := by
    exact_mod_cast Nat.pos_iff_ne_zero.mp hrpos
  rw [nsmul_eq_mul]
  field_simp

/-! ### The projection is the Euclidean-nearest point of the simplex -/

/-- Squared Euclidean distance on coordinate lists (summed over the length of
the second argument). -/
def sqDist (a b : List ℚ) : ℚ :=
  ∑ j ∈ Finset.range b.length, (a.getD j 0 - b.getD j 0) ^ 2

theorem proj_simplex_nearest (v x : List ℚ) (hne : v ≠ [])
    (hlen : x.length = v.length) (hx0 : ∀ a ∈ x, 0 ≤ a) (hx1 : x.sum = 1) :
    sqDist (proj_simplex v) v ≤ sqDist x v := by
  classical
  set t := simplexOffset v with ht
  set p : ℕ → ℚ := fun j => max (v.getD j 0 + t) 0 with hp
  have hpj : ∀ j ∈ Finset.range v.length,
      (proj_simplex v).getD j 0 = p j := by
    intro j hj
    exact proj_simplex_getD v (Finset.mem_range.mp hj)
  have hxj0 : ∀ j ∈ Finset.range v.length, 0 ≤ x.getD j 0 := by
    intro j hj
    have hjx : j < x.length := by
      rw [hlen]
      exact Finset.mem_range.mp hj
    rw [List.getD_eq_getElem _ _ hjx]
    exact hx0 _ (List.getElem_mem hjx)
  -- the per-coordinate lower bound on the cross term
  have key1 : ∀ j ∈ Finset.range v.length,
      (x.getD j 0 - p j) * t ≤ (x.getD j 0 - p j) * (p j - v.getD j 0) := by
    intro j hj
    by_cases hc : 0 ≤ v.getD j 0 + t
    · have : p j = v.getD j 0 + t := max_eq_left hc
      rw [this]
      ring_nf
      exact le_refl _
    · have hneg : v.getD j 0 + t < 0 := lt_of_not_ge hc
      have : p j = 0 := max_eq_right (le_of_lt hneg)
      rw [this]
      have h1 : t ≤ -v.getD j 0 := by linarith
      have h2 : 0 ≤ x.getD j 0 := hxj0 j hj
      calc (x.getD j 0 - 0) * t = x.getD j 0 * t := by ring
        _ ≤ x.getD j 0 * (-v.getD j 0) := mul_le_mul_of_nonneg_left h1 h2
        _ = (x.getD j 0 - 0) * (0 - v.getD j 0) := by ring
  -- both `x` and the projection sum to one over the index range
  have hsx : ∑ j ∈ Finset.range v.length, x.getD j 0 = 1 := by
    rw [← hlen, ← list_sum_eq_range_sum x]
    exact hx1
  have hsp : ∑ j ∈ Finset.range v.length, p j = 1 := by
    have h1 := proj_simplex_sum v hne
    rw [list_sum_eq_range_sum (proj_simplex v), proj_simplex_length v] at h1
    rw [← Finset.sum_congr rfl hpj]
    exact h1
  have key2 : ∑ j ∈ Finset.range v.length, (x.getD j 0 - p j) = 0 := by
    rw [Finset.sum_sub_distrib, hsx, hsp, sub_self]
  have key3 : 0 ≤ ∑ j ∈ Finset.range v.length,
      (x.getD j 0 - p j) * (p j - v.getD j 0) := by
    have h0 : ∑ j ∈ Finset.range v.length, (x.getD j 0 - p j) * t = 0 := by
      rw [← Finset.sum_mul, key2, zero_mul]
    calc (0 : ℚ) = ∑ j ∈ Finset.range v.length, (x.getD j 0 - p j) * t :=
        h0.symm
      _ ≤ _ := Finset.sum_le_sum key1
  have hsq : 0 ≤ ∑ j ∈ Finset.range v.length, (x.getD j 0 - p j) ^ 2 :=
    Finset.sum_nonneg (fun j _ => sq_nonneg _)
  have hmain : sqDist x v =
      (∑ j ∈ Finset.range v.length, (x.getD j 0 - p j) ^ 2) +
      2 * (∑ j ∈ Finset.range v.length,
        (x.getD j 0 - p j) * (p j - v.getD j 0)) +
      ∑ j ∈ Finset.range v.length, (p j - v.getD j 0) ^ 2 := by
    rw [sqDist, Finset.mul_sum, ← Finset.sum_add_distrib, ← Finset.sum_add_distrib]
    apply Finset.sum_congr rfl
    intro j _
    ring
  have hgoal : sqDist (proj_simplex v) v =
      ∑ j ∈ Finset.range v.length, (p j - v.getD j 0) ^ 2 := by
    rw [sqDist]
    apply Finset.sum_congr rfl
    intro j hj
    rw [hpj j hj]
  rw [hgoal, hmain]
  linarith

/-! ## Matrix helpers shared by the solver embeddings

`jax.vmap(f, 1, 1)` maps a vector function over the columns of a matrix;
`jnp.sum(·, axis=1)` sums the columns; multiplying a matrix by a row-reshaped
vector scales its columns. -/

/-- `jax.vmap(f, 1, 1)`: apply `f` to each column. -/
def vmapCols {n p k : ℕ} (f : (Fin n → ℚ) → Fin p → ℚ)
    (M : Matrix (Fin n) (Fin k) ℚ) : Matrix (Fin p) (Fin k) ℚ :=
  Matrix.of fun i c => f (fun r => M r c) i

/-- `jnp.sum(M, axis=1)`. -/
def sumCols {p k : ℕ} (M : Matrix (Fin p) (Fin k) ℚ) : Fin p → ℚ :=
  fun i => ∑ c, M i c

/-- `M * d.reshape(1, -1)`: columnwise scaling. -/
def colScale {n k : ℕ} (M : Matrix (Fin n) (Fin k) ℚ) (d : Fin k → ℚ) :
    Matrix (Fin n) (Fin k) ℚ :=
  Matrix.of fun i c => M i c * d c

/-- `jnp.dot`. -/
def dotQ {m : ℕ} (x y : Fin m → ℚ) : ℚ := ∑ i, x i * y i

/-- `jnp.linalg.norm(x) ** 2`, computed exactly as the sum of squares (the
square root and the squaring cancel). -/
def normSq {m : ℕ} (x : Fin m → ℚ) : ℚ := ∑ i, x i ^ 2

theorem colScale_eq_mul_diagonal {n k : ℕ} (M : Matrix (Fin n) (Fin k) ℚ)
    (d : Fin k → ℚ) : colScale M d = M * Matrix.diagonal d := by
  ext i c
  rw [colScale, Matrix.mul_diagonal]
  rfl

/-! ## SpecBM outer-loop state and stopping condition -/

/-- The `StateStruct` namedtuple of `specbm` (src/solver/specbm.py,
lines 189-202), with `K = k_curr + k_past` bundle directions. -/
structure StateStruct (n m K : ℕ) where
  t : ℕ
  X : Matrix (Fin n) (Fin n) ℚ
  X_bar : Matrix (Fin n) (Fin n) ℚ
  tr_X_bar : ℚ
  z : Fin m → ℚ
  z_bar : Fin m → ℚ
  y : Fin m → ℚ
  V : Matrix (Fin n) (Fin K) ℚ
  primal_obj : ℚ
  bar_primal_obj : ℚ
  pen_dual_obj : ℚ
  lb_spec_est : ℚ

/-- `cond_func` (src/solver/specbm.py lines 204-207): keep iterating while
`t == 0` or the relative gap exceeds `eps`. -/
def cond_func {n m K : ℕ} (eps : ℚ) (state : StateStruct n m K) : Bool :=
  decide (state.t = 0) ||
    decide ((state.pen_dual_obj - state.lb_spec_est) /
      (1 + state.pen_dual_obj) > eps)

theorem cond_func_false_iff {n m K : ℕ} (eps : ℚ) (s : StateStruct n m K) :
    cond_func eps s = false ↔
      (0 < s.t ∧ (s.pen_dual_obj - s.lb_spec_est) / (1 + s.pen_dual_obj) ≤ eps) := by
  rw [cond_func]
  simp only [Bool.or_eq_false_iff, decide_eq_false_iff_not, not_lt]
  constructor
  · rintro ⟨h1, h2⟩
    exact ⟨Nat.pos_of_ne_zero h1, h2⟩
  · rintro ⟨h1, h2⟩
    exact ⟨Nat.pos_iff_ne_zero.mp h1, h2⟩


/-! ## The `body_func` state update (src/solver/specbm.py lines 273-330)

`body_func` starts by calling `solve_subproblem` (lines 212-227) and taking
the clipped eigendecomposition of the returned `S` (lines 228-229, recomputed
identically at lines 258-259); the state update proper is lines 273-330.
Here the update is embedded as a function of the current state together with
the subproblem result `(eta, S)`; `jnp.linalg.eigh` is the oracle parameter
`eighK`, the Lanczos routine `approx_grad_k_min_eigen` (imported from the
`solver.eigen` module, which is not among the four source files) is the
oracle parameter `eigenOracle` applied to its `adjoint_left_vec` argument,
and square roots inside the low-rank factors are the oracle `sqrtQ`. -/

/-- All intermediate quantities of one `body_func` state update
(lines 273-305), before the serious-step test picks the new dual pair. -/
structure BodyComputed (n m k_curr k_past : ℕ) where
  z_next : Fin m → ℚ
  y_cand : Fin m → ℚ
  X_next : Matrix (Fin n) (Fin n) ℚ
  primal_obj_next : ℚ
  cand_pen_dual_obj : ℚ
  lb_spec_est : ℚ
  X_bar_next : Matrix (Fin n) (Fin n) ℚ
  z_bar_next : Fin m → ℚ
  V_next : Matrix (Fin n) (Fin (k_curr + k_past)) ℚ
  bar_primal_obj_next : ℚ

/-- Lines 273-305 of `body_func`, given the subproblem result `(eta, S)`. -/
def body_computed {n m k_curr k_past : ℕ} (hkc : 0 < k_curr)
    (C_matvec : (Fin n → ℚ) → Fin n → ℚ)
    (A_operator_slim : (Fin n → ℚ) → Fin m → ℚ)
    (eighK : Matrix (Fin (k_curr + k_past)) (Fin (k_curr + k_past)) ℚ →
      (Fin (k_curr + k_past) → ℚ) ×
        Matrix (Fin (k_curr + k_past)) (Fin (k_curr + k_past)) ℚ)
    (eigenOracle : (Fin m → ℚ) →
      (Fin k_curr → ℚ) × Matrix (Fin n) (Fin k_curr) ℚ)
    (sqrtQ : ℚ → ℚ) (b : Fin m → ℚ) (trace_ub rho : ℚ)
    (state : StateStruct n m (k_curr + k_past))
    (eta : ℚ) (S : Matrix (Fin (k_curr + k_past)) (Fin (k_curr + k_past)) ℚ) :
    BodyComputed n m k_curr k_past :=
  -- lines 258-259 (equivalently 228-229): eigendecompose `S`, clip negatives
  let E := eighK S
  let S_eigvals : Fin (k_curr + k_past) → ℚ :=
    fun c => if E.1 c < 0 then 0 else E.1 c
  let S_eigvecs := E.2
  -- line 273
  let VSV_T_factor := colScale (state.V * S_eigvecs) (fun c => sqrtQ (S_eigvals c))
  -- line 274
  let A_operator_VSV_T := sumCols (vmapCols A_operator_slim VSV_T_factor)
  -- line 275
  let X_next := eta • state.X_bar + state.V * S * state.V.transpose
  -- line 276
  let z_next := fun i => eta * state.z_bar i + A_operator_VSV_T i
  -- line 277
  let y_cand := fun i => state.y i + (1 / rho) * (b i - z_next i)
  -- line 278
  let primal_obj_next := eta * state.bar_primal_obj +
    Matrix.trace (VSV_T_factor.transpose * vmapCols C_matvec VSV_T_factor)
  -- lines 280-288: Lanczos on the negated dual operator, then negate back
  let cand := eigenOracle (fun i => -(y_cand i))
  let cand_eigvals : Fin k_curr → ℚ := fun i => -(cand.1 i)
  let cand_eigvecs := cand.2
  -- line 290: dot(-b, y_cand) + trace_ub * clip(cand_eigvals[0], a_min=0)
  let cand_pen_dual_obj := dotQ (fun i => -(b i)) y_cand +
    trace_ub * max (cand_eigvals ⟨0, hkc⟩) 0
  -- lines 291-292
  let lb_spec_est := dotQ (fun i => -(b i)) y_cand +
    eta * dotQ state.z_bar y_cand - eta * state.bar_primal_obj +
    dotQ A_operator_VSV_T y_cand -
    Matrix.trace (VSV_T_factor.transpose * vmapCols C_matvec VSV_T_factor)
  -- line 300: first k_curr columns of the eigendecomposition
  let curr_VSV_T_factor := colScale
    (state.V * Matrix.of fun (r : Fin (k_curr + k_past)) (c : Fin k_curr) =>
      S_eigvecs r (Fin.castAdd k_past c))
    (fun c => sqrtQ (S_eigvals (Fin.castAdd k_past c)))
  -- line 301
  let X_bar_next := eta • state.X_bar +
    curr_VSV_T_factor * curr_VSV_T_factor.transpose
  -- line 302
  let z_bar_next := fun i => eta * state.z_bar i +
    sumCols (vmapCols A_operator_slim curr_VSV_T_factor) i
  -- line 303: concatenate([state.V @ S_eigvecs[:, k_curr:], cand_eigvecs], axis=1)
  let V_next : Matrix (Fin n) (Fin (k_curr + k_past)) ℚ :=
    Matrix.of fun i c =>
      if h : (c : ℕ) < k_past then
        (state.V * Matrix.of fun (r : Fin (k_curr + k_past)) (c2 : Fin k_past) =>
          S_eigvecs r (Fin.natAdd k_curr c2)) i ⟨(c : ℕ), h⟩
      else
        cand_eigvecs i ⟨(c : ℕ) - k_past, by omega⟩
  -- lines 304-305
  let bar_primal_obj_next := eta * state.bar_primal_obj +
    Matrix.trace (curr_VSV_T_factor.transpose *
      vmapCols C_matvec curr_VSV_T_factor)
  { z_next := z_next
    y_cand := y_cand
    X_next := X_next
    primal_obj_next := primal_obj_next
    cand_pen_dual_obj := cand_pen_dual_obj
    lb_spec_est := lb_spec_est
    X_bar_next := X_bar_next
    z_bar_next := z_bar_next
    V_next := V_next
    bar_primal_obj_next := bar_primal_obj_next }

/-- The full `body_func` state update (lines 273-330): the serious-step test
at lines 294-298 picks the new dual pair, everything else is taken from the
computed intermediates (lines 318-330; `infeas_gap` and `max_infeas` at lines
307-316 only feed a debug print and are omitted). -/
def body_func_update {n m k_curr k_past : ℕ} (hkc : 0 < k_curr)
    (C_matvec : (Fin n → ℚ) → Fin n → ℚ)
    (A_operator_slim : (Fin n → ℚ) → Fin m → ℚ)
    (eighK : Matrix (Fin (k_curr + k_past)) (Fin (k_curr + k_past)) ℚ →
      (Fin (k_curr + k_past) → ℚ) ×
        Matrix (Fin (k_curr + k_past)) (Fin (k_curr + k_past)) ℚ)
    (eigenOracle : (Fin m → ℚ) →
      (Fin k_curr → ℚ) × Matrix (Fin n) (Fin k_curr) ℚ)
    (sqrtQ : ℚ → ℚ) (b : Fin m → ℚ) (trace_ub rho beta : ℚ)
    (state : StateStruct n m (k_curr + k_past))
    (eta : ℚ) (S : Matrix (Fin (k_curr + k_past)) (Fin (k_curr + k_past)) ℚ) :
    StateStruct n m (k_curr + k_past) :=
  let I := body_computed hkc C_matvec A_operator_slim eighK eigenOracle sqrtQ
    b trace_ub rho state eta S
  -- lines 294-298: lax.cond on the serious-step inequality
  let serious := beta * (state.pen_dual_obj - I.lb_spec_est) ≤
    state.pen_dual_obj - I.cand_pen_dual_obj
  { t := state.t + 1
    X := I.X_next
    X_bar := I.X_bar_next
    tr_X_bar := Matrix.trace I.X_bar_next
    z := I.z_next
    z_bar := I.z_bar_next
    y := if serious then I.y_cand else state.y
    V := I.V_next
    primal_obj := I.primal_obj_next
    bar_primal_obj := I.bar_primal_obj_next
    pen_dual_obj := if serious then I.cand_pen_dual_obj else state.pen_dual_obj
    lb_spec_est := I.lb_spec_est }


/-! ## `solve_subproblem` and its APGD loop (src/solver/specbm.py lines 18-135)

The source builds `C_matmat = jax.vmap(C_matvec, 1, 1)`,
`A_adjoint_batched = jax.vmap(A_adjoint_slim, (None, 1), 1)` and
`A_operator_batched = jax.vmap(A_operator_slim, 1, 1)` in `specbm`
(lines 170-172) and passes the batched forms to `solve_subproblem`; here the
slim operators are the parameters and the batched forms are `vmapCols`. -/

/-- The `APGDState` namedtuple (lines 38-40).  The source initializes `i` to
the float `0.0` and only ever adds one to it; it is modelled as `ℕ`. -/
structure APGDState (K : ℕ) where
  i : ℕ
  eta_curr : ℚ
  eta_past : ℚ
  S_curr : Matrix (Fin K) (Fin K) ℚ
  S_past : Matrix (Fin K) (Fin K) ℚ
  max_value_change : ℚ

/-- One `apgd` step (lines 42-115). -/
def apgd {n m K : ℕ}
    (C_matvec : (Fin n → ℚ) → Fin n → ℚ)
    (A_operator_slim : (Fin n → ℚ) → Fin m → ℚ)
    (A_adjoint_slim : (Fin m → ℚ) → (Fin n → ℚ) → Fin n → ℚ)
    (eighK : Matrix (Fin K) (Fin K) ℚ → (Fin K → ℚ) × Matrix (Fin K) (Fin K) ℚ)
    (sqrtQ : ℚ → ℚ)
    (b : Fin m → ℚ) (trace_ub rho bar_primal_obj : ℚ)
    (z_bar y : Fin m → ℚ)
    (V : Matrix (Fin n) (Fin K) ℚ) (apgd_step_size : ℚ)
    (s : APGDState K) : APGDState K :=
  -- line 45 (the accelerated momentum at line 44 is commented out in source)
  let momentum : ℚ := 0
  -- lines 46-47
  let S := s.S_curr + momentum • (s.S_curr - s.S_past)
  let eta := s.eta_curr + momentum * (s.eta_curr - s.eta_past)
  -- line 48
  let E1 := eighK S
  -- line 51: clip negative eigenvalues
  let S_eigvals := fun c => if E1.1 c < 0 then 0 else E1.1 c
  let S_eigvecs := E1.2
  -- line 54
  let VSV_T_factor := colScale (V * S_eigvecs)
    (fun c => sqrtQ (trace_ub * S_eigvals c))
  -- line 55
  let A_operator_VSV_T := sumCols (vmapCols A_operator_slim VSV_T_factor)
  -- lines 56-60 compute `subproblem_obj_val` only for a debug print: omitted
  -- lines 62-64
  let grad_S := trace_ub • (V.transpose * vmapCols C_matvec V)
    - trace_ub • (V.transpose * vmapCols (A_adjoint_slim y) V)
    + (trace_ub / rho) • (V.transpose * vmapCols
        (A_adjoint_slim (fun i => eta * z_bar i + A_operator_VSV_T i - b i)) V)
  -- lines 65-67
  let grad_eta := bar_primal_obj - dotQ y z_bar + (eta / rho) * normSq z_bar
    + (1 / rho) * dotQ z_bar (fun i => A_operator_VSV_T i - b i)
  -- lines 70-71
  let S_unproj := S - apgd_step_size • grad_S
  let eta_unproj := eta - apgd_step_size * grad_eta
  -- line 73 (rebinds `S_eigvecs` to the eigenvectors of `S_unproj`)
  let E2 := eighK S_unproj
  let S_eigvecs2 := E2.2
  -- line 74
  let trace_vals : List ℚ := List.ofFn E2.1 ++ [eta_unproj]
  -- lines 90-97: `simplexStep` is exactly the `lax.cond` fast path around
  -- `proj_simplex`
  let proj_trace_vals := simplexStep trace_vals
  -- line 101 (`proj_trace_vals[-1]`; the `tr_X_bar` normalization at line 100
  -- is commented out in the source)
  let eta_next := proj_trace_vals.getD K 0
  -- line 102
  let proj_S_eigvals : Fin K → ℚ := fun c => proj_trace_vals.getD c 0
  -- line 103
  let S_next := colScale S_eigvecs2 proj_S_eigvals * S_eigvecs2.transpose
  -- lines 104-106
  let max_value_change := Finset.univ.fold max |s.eta_curr - eta_next|
    (fun p : Fin K × Fin K => |s.S_curr p.1 p.2 - S_next p.1 p.2|)
  -- lines 109-115
  { i := s.i + 1
    eta_curr := eta_next
    eta_past := s.eta_curr
    S_curr := S_next
    S_past := s.S_curr
    max_value_change := max_value_change }

/-- `solve_subproblem` (lines 18-135).  `tr_X_bar` is an argument that the
body never uses: its only occurrence, the `eta / tr_X_bar` normalization at
line 100, is commented out. -/
def solve_subproblem {n m K : ℕ}
    (C_matvec : (Fin n → ℚ) → Fin n → ℚ)
    (A_operator_slim : (Fin n → ℚ) → Fin m → ℚ)
    (A_adjoint_slim : (Fin m → ℚ) → (Fin n → ℚ) → Fin n → ℚ)
    (eighK : Matrix (Fin K) (Fin K) ℚ → (Fin K → ℚ) × Matrix (Fin K) (Fin K) ℚ)
    (sqrtQ : ℚ → ℚ)
    (b : Fin m → ℚ) (trace_ub rho bar_primal_obj : ℚ)
    (z_bar : Fin m → ℚ) (tr_X_bar : ℚ) (y : Fin m → ℚ)
    (V : Matrix (Fin n) (Fin K) ℚ)
    (apgd_step_size : ℚ) (apgd_max_iters : ℕ) (apgd_eps : ℚ) :
    ℚ × Matrix (Fin K) (Fin K) ℚ :=
  -- lines 117-123: `max_value_change` starts at `1.1 * apgd_eps`
  let init : APGDState K :=
    { i := 0, eta_curr := 0, eta_past := 0, S_curr := 0, S_past := 0
      max_value_change := (11 / 10) * apgd_eps }
  -- lines 129-133
  let final := (boundedWhileLoop
    (fun s => decide (s.max_value_change > apgd_eps))
    (apgd C_matvec A_operator_slim A_adjoint_slim eighK sqrtQ b trace_ub rho
      bar_primal_obj z_bar y V apgd_step_size)
    apgd_max_iters init).1
  -- line 135
  (final.eta_curr, trace_ub • final.S_curr)


/-! ### Properties of the projected trace vector and of the APGD iterates -/

theorem ofFn_append_length {K : ℕ} (f : Fin K → ℚ) (e : ℚ) :
    (List.ofFn f ++ [e]).length = K + 1 := by simp

theorem ofFn_append_getD_last {K : ℕ} (f : Fin K → ℚ) (e : ℚ) :
    (List.ofFn f ++ [e]).getD K 0 = e := by
  have hlen : K < (List.ofFn f ++ [e]).length := by simp
  rw [List.getD_eq_getElem _ _ hlen, List.getElem_append]
  simp

theorem simplexStep_length (v : List ℚ) : (simplexStep v).length = v.length := by
  rw [simplexStep]
  split
  · rfl
  · exact proj_simplex_length v

/-- After the fast-path test and possible projection, the output sums to at
most one. -/
theorem simplexStep_sum_le (v : List ℚ) (hne : v ≠ []) :
    (simplexStep v).sum ≤ 1 := by
  rw [simplexStep]
  split
  · next h =>
    have h1 : v.sum < 1 := by
      have := (Bool.and_eq_true _ _).mp h
      exact of_decide_eq_true this.1
    exact le_of_lt h1
  · exact le_of_eq (proj_simplex_sum v hne)

/-- After the fast-path test and possible projection, every entry is at least
`-1e-6`. -/
theorem simplexStep_entries_lb (v : List ℚ) :
    ∀ a ∈ simplexStep v, -(1 / 1000000 : ℚ) ≤ a := by
  rw [simplexStep]
  split
  · next h =>
    intro a ha
    have h2 := (Bool.and_eq_true _ _).mp h
    have h3 := List.all_eq_true.mp h2.2 a ha
    exact le_of_lt (of_decide_eq_true h3)
  · intro a ha
    calc -(1 / 1000000 : ℚ) ≤ 0 := by norm_num
      _ ≤ a := proj_simplex_nonneg v a ha

theorem simplexStep_getD_mem (v : List ℚ) {j : ℕ} (hj : j < v.length) :
    (simplexStep v).getD j 0 ∈ simplexStep v := by
  have hlen : j < (simplexStep v).length := by rwa [simplexStep_length]
  rw [List.getD_eq_getElem _ _ hlen]
  exact List.getElem_mem hlen

theorem sum_getD_split (l : List ℚ) (K : ℕ) (hlen : l.length = K + 1) :
    (∑ c : Fin K, l.getD c 0) + l.getD K 0 = l.sum := by
  rw [list_sum_eq_range_sum l, hlen, Finset.sum_range_succ,
    Fin.sum_univ_eq_sum_range (fun j => l.getD j 0) K]

theorem normSq_eq_dot {K : ℕ} (x : Fin K → ℚ) :
    normSq x = Matrix.dotProduct x x := by
  rw [normSq, Matrix.dotProduct]
  apply Finset.sum_congr rfl
  intro i _
  ring

theorem vecMul_eq_transpose_mulVec {K : ℕ} (Q : Matrix (Fin K) (Fin K) ℚ)
    (x : Fin K → ℚ) : Matrix.vecMul x Q = Q.transpose.mulVec x :=
  (Matrix.mulVec_transpose Q x).symm

/-- Conjugating a diagonal matrix by a matrix with orthonormal columns
preserves the trace. -/
theorem trace_conj_diag {K : ℕ} (Q : Matrix (Fin K) (Fin K) ℚ)
    (d : Fin K → ℚ) (horth : Q.transpose * Q = 1) :
    (Q * Matrix.diagonal d * Q.transpose).trace = ∑ i, d i := by
  rw [Matrix.trace_mul_comm (Q * Matrix.diagonal d) Q.transpose,
    ← Matrix.mul_assoc, horth, Matrix.one_mul, Matrix.trace_diagonal]

/-- Quadratic-form lower bound for a conjugated diagonal matrix whose
diagonal entries are bounded below by a non-positive constant. -/
theorem quadform_conj_diag_lb {K : ℕ} (Q : Matrix (Fin K) (Fin K) ℚ)
    (d : Fin K → ℚ) (c : ℚ) (horth : Q.transpose * Q = 1) (hc : c ≤ 0)
    (hd : ∀ i, c ≤ d i) (x : Fin K → ℚ) :
    c * normSq x ≤ Matrix.dotProduct x
      ((Q * Matrix.diagonal d * Q.transpose).mulVec x) := by
  have hQQt : Q * Q.transpose = 1 := Matrix.mul_eq_one_comm.mp horth
  set w : Fin K → ℚ := Q.transpose.mulVec x with hw
  have hexpand : Matrix.dotProduct x
      ((Q * Matrix.diagonal d * Q.transpose).mulVec x) =
      ∑ i, d i * w i ^ 2 := by
    rw [← Matrix.mulVec_mulVec, ← Matrix.mulVec_mulVec,
      Matrix.dotProduct_mulVec, vecMul_eq_transpose_mulVec, ← hw,
      Matrix.dotProduct]
    apply Finset.sum_congr rfl
    intro i _
    rw [Matrix.mulVec_diagonal]
    ring
  have hww : ∑ i, w i ^ 2 = normSq x := by
    have h1 : Matrix.dotProduct w w = Matrix.dotProduct x x := by
      rw [hw, Matrix.dotProduct_comm, Matrix.dotProduct_mulVec,
        vecMul_eq_transpose_mulVec, Matrix.transpose_transpose,
        Matrix.mulVec_mulVec, hQQt, Matrix.one_mulVec]
    rw [← normSq_eq_dot, ← normSq_eq_dot] at h1
    calc ∑ i, w i ^ 2 = normSq w := rfl
      _ = normSq x := h1
  rw [hexpand, ← hww, Finset.mul_sum]
  apply Finset.sum_le_sum
  intro i _
  have h2 : 0 ≤ w i ^ 2 := sq_nonneg _
  exact mul_le_mul_of_nonneg_right (hd i) h2

/-- Invariant maintained by the APGD iterates: the trace of `S_curr` plus
`eta_curr` is at most one, and `S_curr` is positive semidefinite up to the
`-1e-6` fast-path tolerance. -/
def apgdTraceInv {K : ℕ} (s : APGDState K) : Prop :=
  s.S_curr.trace + s.eta_curr ≤ 1 ∧
  ∀ x : Fin K → ℚ, -(1 / 1000000) * normSq x ≤
    Matrix.dotProduct x (s.S_curr.mulVec x)

/-- Core of the invariant-preservation argument: a conjugated diagonal matrix
built from the projected trace vector, together with its last entry,
satisfies both bounds. -/
theorem step_inv_core {K : ℕ} (Q : Matrix (Fin K) (Fin K) ℚ)
    (horthQ : Q.transpose * Q = 1) (v : List ℚ) (hvlen : v.length = K + 1) :
    (colScale Q (fun c => (simplexStep v).getD c 0) * Q.transpose).trace +
      (simplexStep v).getD K 0 ≤ 1 ∧
    ∀ x : Fin K → ℚ, -(1 / 1000000) * normSq x ≤ Matrix.dotProduct x
      ((colScale Q (fun c => (simplexStep v).getD c 0) *
        Q.transpose).mulVec x) := by
  have hne : v ≠ [] := by
    intro h
    rw [h] at hvlen
    simp at hvlen
  have hslen : (simplexStep v).length = K + 1 := by
    rw [simplexStep_length, hvlen]
  constructor
  · rw [colScale_eq_mul_diagonal, trace_conj_diag Q _ horthQ]
    have hsum := simplexStep_sum_le v hne
    have hsplit := sum_getD_split (simplexStep v) K hslen
    have hcast : ∑ c : Fin K, (simplexStep v).getD (c : ℕ) 0 =
        ∑ c : Fin K, (fun c : Fin K => (simplexStep v).getD (c : ℕ) 0) c := rfl
    linarith [hsplit, hsum]
  · intro x
    rw [colScale_eq_mul_diagonal]
    apply quadform_conj_diag_lb Q _ _ horthQ (by norm_num)
    intro i
    apply simplexStep_entries_lb v
    apply simplexStep_getD_mem
    rw [hvlen]
    omega


/-- One APGD step always produces a state satisfying the trace/PSD-tolerance
invariant, provided the eigendecomposition oracle returns matrices with
orthonormal columns. -/
theorem apgd_inv {n m K : ℕ}
    (C_matvec : (Fin n → ℚ) → Fin n → ℚ)
    (A_operator_slim : (Fin n → ℚ) → Fin m → ℚ)
    (A_adjoint_slim : (Fin m → ℚ) → (Fin n → ℚ) → Fin n → ℚ)
    (eighK : Matrix (Fin K) (Fin K) ℚ → (Fin K → ℚ) × Matrix (Fin K) (Fin K) ℚ)
    (sqrtQ : ℚ → ℚ)
    (b : Fin m → ℚ) (trace_ub rho bar_primal_obj : ℚ)
    (z_bar y : Fin m → ℚ)
    (V : Matrix (Fin n) (Fin K) ℚ) (apgd_step_size : ℚ)
    (horth : ∀ M, ((eighK M).2).transpose * (eighK M).2 = 1)
    (s : APGDState K) :
    apgdTraceInv (apgd C_matvec A_operator_slim A_adjoint_slim eighK sqrtQ b
      trace_ub rho bar_primal_obj z_bar y V apgd_step_size s) := by
  simp only [apgd, apgdTraceInv]
  exact step_inv_core _ (horth _) _ (ofFn_append_length _ _)

/-- The initial APGD state satisfies the invariant. -/
theorem apgd_init_inv {K : ℕ} (apgd_eps : ℚ) :
    apgdTraceInv (APGDState.mk (K := K) 0 0 0 0 0 ((11 / 10) * apgd_eps)) := by
  constructor
  · simp [Matrix.trace]
  · intro x
    have h1 : (0 : Matrix (Fin K) (Fin K) ℚ).mulVec x = 0 :=
      Matrix.zero_mulVec x
    have h2 : 0 ≤ normSq x := Finset.sum_nonneg fun i _ => sq_nonneg _
    simp only [h1, Matrix.dotProduct_zero]
    have h3 : -(1 / 1000000 : ℚ) ≤ 0 := by norm_num
    exact mul_nonpos_of_nonpos_of_nonneg h3 h2


/-! ## The `specbm` entry point (src/solver/specbm.py lines 138-398)

As written, `specbm` computes the initial penalized dual objective
(lines 334-343) and the initial state (lines 345-357), but its outer-loop
invocation at line 359 is commented out.  Instead the body unpickles
"state1.pkl" (lines 362-368; the file content is exogenous and is a parameter
here), runs `body_func` once on it (line 370), and `body_func` itself ends in
`embed()` / `exit()` at lines 268-269 inside its debug block (as does
`specbm` right after, lines 372-373); execution therefore always terminates
inside debug code and the `return` at line 398 is unreachable.  (Were it
reached, `jnp.zeros(n, n)` would moreover raise a `TypeError` since `n` is
not a dtype; the intended value is the `n × n` zero matrix.) -/

/-- Possible outcomes of running `specbm`: process termination inside debug
code (carrying the `eta` computed by the `solve_subproblem` call inside
`body_func` and the initial penalized dual objective), or an actual return
value. -/
inductive SpecbmResult (n m : ℕ) where
  | debugExit (eta pen_dual_obj : ℚ) : SpecbmResult n m
  | returned (X : Matrix (Fin n) (Fin n) ℚ) (y : Fin m → ℚ) : SpecbmResult n m

/-- Execution model of `specbm` (lines 138-398).  `eigenOracle1` stands for
the `approx_grad_k_min_eigen` call with `k = 1` at lines 334-341, applied to
its `adjoint_left_vec` argument; `state1` is the unpickled content of
"state1.pkl".  The parameters `eps`, `max_iters` and `beta` are accepted but
unused, exactly as in the source, whose loop call is commented out. -/
def specbm {n m k_curr k_past : ℕ}
    (C_matvec : (Fin n → ℚ) → Fin n → ℚ)
    (A_operator_slim : (Fin n → ℚ) → Fin m → ℚ)
    (A_adjoint_slim : (Fin m → ℚ) → (Fin n → ℚ) → Fin n → ℚ)
    (eighK : Matrix (Fin (k_curr + k_past)) (Fin (k_curr + k_past)) ℚ →
      (Fin (k_curr + k_past) → ℚ) ×
        Matrix (Fin (k_curr + k_past)) (Fin (k_curr + k_past)) ℚ)
    (sqrtQ : ℚ → ℚ)
    (eigenOracle1 : (Fin m → ℚ) → (Fin 1 → ℚ) × Matrix (Fin n) (Fin 1) ℚ)
    (X : Matrix (Fin n) (Fin n) ℚ) (y z : Fin m → ℚ) (primal_obj : ℚ)
    (V : Matrix (Fin n) (Fin (k_curr + k_past)) ℚ)
    (trace_ub : ℚ) (b : Fin m → ℚ) (rho beta eps : ℚ) (max_iters : ℕ)
    (apgd_step_size : ℚ) (apgd_max_iters : ℕ) (apgd_eps : ℚ)
    (state1 : StateStruct n m (k_curr + k_past)) :
    SpecbmResult n m :=
  -- lines 334-342: one eigensolver call (k = 1) on the negated dual operator
  let prev := eigenOracle1 (fun i => -(y i))
  let prev_eigvals : Fin 1 → ℚ := fun i => -(prev.1 i)
  -- line 343
  let pen_dual_obj := dotQ (fun i => -(b i)) y +
    trace_ub * max (prev_eigvals 0) 0
  -- lines 345-357
  let init_state : StateStruct n m (k_curr + k_past) :=
    StateStruct.mk 0 X X (Matrix.trace X) z z y V primal_obj primal_obj
      pen_dual_obj 0
  -- line 359: the `bounded_while_loop(cond_func, body_func, ...)` call is
  -- commented out; lines 366-368 unpickle `state1`; line 370 runs
  -- `body_func(state1)`, whose debug block first calls `solve_subproblem`
  -- (lines 212-227) and then hits `embed()` / `exit()` at lines 268-269
  let sub := solve_subproblem C_matvec A_operator_slim A_adjoint_slim eighK
    sqrtQ b trace_ub rho state1.bar_primal_obj state1.z_bar state1.tr_X_bar
    state1.y state1.V apgd_step_size apgd_max_iters apgd_eps
  SpecbmResult.debugExit sub.1 init_state.pen_dual_obj

/-- The unreachable `return` at line 398 (intended value: zero matrix and
zero vector, independent of the problem data). -/
def specbm_dead_return (n m : ℕ) : SpecbmResult n m :=
  SpecbmResult.returned 0 0

/-! ## Constraint assembly (src/utils/ecc_helpers.py)

`A_indices` rows are `(constraint id, row, col)` triples and `A_data` the
matching coefficients; `b` is the right-hand side and `b_ineq_mask` marks
inequality constraints (floats 0.0 / 1.0 in the source). -/

/-- The four parallel arrays built by the assembly functions. -/
structure ProblemData where
  A_data : List ℚ
  A_indices : List (ℕ × ℕ × ℕ)
  b : List ℚ
  b_ineq_mask : List ℚ

/-- `constraint_triples[:, [0, 2, 1]]`: swap row and column. -/
def swapRC (t : ℕ × ℕ × ℕ) : ℕ × ℕ × ℕ := (t.1, t.2.2, t.2.1)

/-- The symmetrize-and-append pattern shared by all constraint blocks
(src/utils/ecc_helpers.py lines 37-44, 122-129, 133-141 and 150-157): append
the triples together with their row/col-swapped mirrors, all with the same
coefficient, and extend `b` and the inequality mask. -/
def appendSym (pd : ProblemData) (ct : List (ℕ × ℕ × ℕ)) (coeff : ℚ)
    (bvals maskvals : List ℚ) : ProblemData :=
  let ct2 := ct ++ ct.map swapRC
  { A_data := pd.A_data ++ List.replicate ct2.length coeff
    A_indices := pd.A_indices ++ ct2
    b := pd.b ++ bvals
    b_ineq_mask := pd.b_ineq_mask ++ maskvals }

/-- `get_all_problem_data` (src/utils/ecc_helpers.py lines 24-46).  `C` is a
BCOO sparse matrix; only its shape `n` and stored index pairs enter the
assembly. -/
def get_all_problem_data (n : ℕ) (C_indices : List (ℕ × ℕ)) : ProblemData :=
  -- lines 27-32: `n` diagonal-equals-one equality constraints
  let pd0 : ProblemData :=
    { A_data := List.replicate n (1 : ℚ)
      A_indices := (List.range n).map (fun i => (i, i, i))
      b := List.replicate n (1 : ℚ)
      b_ineq_mask := List.replicate n (0 : ℚ) }
  -- lines 34-44: one `-0.5 X_ij - 0.5 X_ji <= 0` inequality per stored
  -- upper-triangular entry of `C`
  let triu := C_indices.filter (fun p => decide (p.1 ≤ p.2))
  let ct := triu.enum.map (fun e => (n + e.1, e.2.1, e.2.2))
  appendSym pd0 ct (-(1 / 2)) (List.replicate triu.length 0)
    (List.replicate triu.length 1)

/-- The constraint-assembly portion of `cold_start_add_constraint`
(src/utils/ecc_helpers.py lines 100-157); the rest of that function
(re-initializing the primal and the scales) is modelled separately for the
error-handling claim. -/
def cold_start_add_constraint_A (old : ProblemData) (old_n : ℕ)
    (ortho_indices : List (ℕ × ℕ))
    (sum_gt_one_constraints : List (List (ℕ × ℕ))) : ProblemData :=
  let n := old_n + 1
  -- lines 113-117: diagonal == 1 constraint for the new variable
  let pd1 : ProblemData :=
    { A_data := old.A_data ++ [(1 : ℚ)]
      A_indices := old.A_indices ++ [(old.b.length, n - 1, n - 1)]
      b := old.b ++ [(1 : ℚ)]
      b_ineq_mask := old.b_ineq_mask ++ [(0 : ℚ)] }
  -- lines 120-129: orthogonality constraints (guarded by
  -- `len(ortho_indices) > 0` in the source)
  let pd2 :=
    if 0 < ortho_indices.length then
      appendSym pd1
        (ortho_indices.enum.map (fun e => (pd1.b.length + e.1, e.2.1, e.2.2)))
        1 (List.replicate ortho_indices.length 0)
        (List.replicate ortho_indices.length 1)
    else pd1
  -- lines 131-141: sum-greater-than-one constraints, one id per hyperplane
  let num_hyperplanes := sum_gt_one_constraints.length
  let sgo_ct := (sum_gt_one_constraints.enum.map
    (fun g => g.2.map (fun p => (pd2.b.length + g.1, p.1, p.2)))).join
  let pd3 := appendSym pd2 sgo_ct (-(1 / 2))
    (List.replicate num_hyperplanes (-1))
    (List.replicate num_hyperplanes 1)
  -- lines 143-157: auxiliary "mixed" constraints for multi-element groups
  let mixed_var_tuples := (sum_gt_one_constraints.enum.map
    (fun g => if 1 < g.2.length then g.2.map (fun p => (p.1, p.2, g.1))
      else [])).join
  let mx_ct := mixed_var_tuples.enum.map
    (fun e => (pd3.b.length + e.1, e.2.1, e.2.2.1))
  appendSym pd3 mx_ct (-(1 / 2))
    (List.replicate num_hyperplanes 0)
    (List.replicate num_hyperplanes 1)

/-- The constraint-assembly portion of `warm_start_add_constraint`
(src/utils/ecc_helpers.py lines 207-266): lines 221-266 are textually
identical to lines 112-157 of `cold_start_add_constraint`, so the assembly
is the same function. -/
def warm_start_add_constraint_A (old : ProblemData) (old_n : ℕ)
    (ortho_indices : List (ℕ × ℕ))
    (sum_gt_one_constraints : List (List (ℕ × ℕ))) : ProblemData :=
  cold_start_add_constraint_A old old_n ortho_indices sum_gt_one_constraints

/-! ### Mirror-completeness of the assembled operator -/

/-- The assembled entries: `A_indices` rows paired with their coefficients. -/
def entriesOf (pd : ProblemData) : List ((ℕ × ℕ × ℕ) × ℚ) :=
  pd.A_indices.zip pd.A_data

/-- Every off-diagonal triple `(c, i, j)` has the mirrored triple `(c, j, i)`
with the same coefficient. -/
def mirrorComplete (pd : ProblemData) : Prop :=
  ∀ c i j q, ((c, i, j), q) ∈ entriesOf pd → i ≠ j →
    ((c, j, i), q) ∈ entriesOf pd


/-- Mirror-completeness at the level of entry lists. -/
def mirrorE (E : List ((ℕ × ℕ × ℕ) × ℚ)) : Prop :=
  ∀ c i j q, ((c, i, j), q) ∈ E → i ≠ j → ((c, j, i), q) ∈ E

theorem mirrorComplete_iff_mirrorE (pd : ProblemData) :
    mirrorComplete pd ↔ mirrorE (entriesOf pd) := Iff.rfl

theorem mirrorE_append {E1 E2 : List ((ℕ × ℕ × ℕ) × ℚ)} (h1 : mirrorE E1)
    (h2 : mirrorE E2) : mirrorE (E1 ++ E2) := by
  intro c i j q hmem hij
  rcases List.mem_append.mp hmem with h | h
  · exact List.mem_append_left _ (h1 c i j q h hij)
  · exact List.mem_append_right _ (h2 c i j q h hij)

theorem mem_zip_replicate {α : Type*} {l : List α} {q : ℚ} {x : α} {y : ℚ} :
    (x, y) ∈ l.zip (List.replicate l.length q) ↔ x ∈ l ∧ y = q := by
  induction l with
  | nil => simp
  | cons a as ih =>
    rw [List.length_cons, List.replicate_succ, List.zip_cons_cons,
      List.mem_cons, ih]
    constructor
    · rintro (h | ⟨h1, h2⟩)
      · rw [Prod.mk.injEq] at h
        rw [h.1]
        exact ⟨List.mem_cons_self _ _, h.2⟩
      · exact ⟨List.mem_cons_of_mem _ h1, h2⟩
    · rintro ⟨h1, rfl⟩
      rcases List.mem_cons.mp h1 with rfl | h
      · exact Or.inl rfl
      · exact Or.inr ⟨h, rfl⟩

/-- A symmetrized block (triples plus their swapped copies, constant
coefficient) is mirror-complete. -/
theorem mirrorE_symBlock (ct : List (ℕ × ℕ × ℕ)) (q : ℚ) :
    mirrorE ((ct ++ ct.map swapRC).zip
      (List.replicate (ct ++ ct.map swapRC).length q)) := by
  intro c i j p hmem hij
  rw [mem_zip_replicate] at hmem
  obtain ⟨hx, rfl⟩ := hmem
  rw [mem_zip_replicate]
  refine ⟨?_, rfl⟩
  rcases List.mem_append.mp hx with h | h
  · apply List.mem_append_right
    rw [List.mem_map]
    exact ⟨(c, i, j), h, rfl⟩
  · apply List.mem_append_left
    rw [List.mem_map] at h
    obtain ⟨t, ht, hswap⟩ := h
    have : t = (c, j, i) := by
      rw [swapRC, Prod.ext_iff, Prod.ext_iff] at hswap
      obtain ⟨h1, h2, h3⟩ := hswap
      rw [Prod.ext_iff, Prod.ext_iff]
      exact ⟨h1, h3, h2⟩
    rwa [this] at ht

/-- A block whose triples are all diagonal is (vacuously) mirror-complete. -/
theorem mirrorE_diag {E : List ((ℕ × ℕ × ℕ) × ℚ)}
    (h : ∀ e ∈ E, e.1.2.1 = e.1.2.2) : mirrorE E := by
  intro c i j q hmem hij
  exact absurd (h _ hmem) hij

/-- Entries of an `appendSym` split as the old entries followed by the new
symmetrized block. -/
theorem entriesOf_appendSym (pd : ProblemData) (ct : List (ℕ × ℕ × ℕ))
    (coeff : ℚ) (bvals maskvals : List ℚ)
    (hwf : pd.A_indices.length = pd.A_data.length) :
    entriesOf (appendSym pd ct coeff bvals maskvals) =
      entriesOf pd ++ (ct ++ ct.map swapRC).zip
        (List.replicate (ct ++ ct.map swapRC).length coeff) := by
  rw [entriesOf, appendSym]
  exact List.zip_append hwf

theorem wf_appendSym (pd : ProblemData) (ct : List (ℕ × ℕ × ℕ)) (coeff : ℚ)
    (bvals maskvals : List ℚ)
    (hwf : pd.A_indices.length = pd.A_data.length) :
    (appendSym pd ct coeff bvals maskvals).A_indices.length =
      (appendSym pd ct coeff bvals maskvals).A_data.length := by
  simp [appendSym, hwf]

theorem mirrorComplete_appendSym (pd : ProblemData) (ct : List (ℕ × ℕ × ℕ))
    (coeff : ℚ) (bvals maskvals : List ℚ)
    (hwf : pd.A_indices.length = pd.A_data.length)
    (hpd : mirrorComplete pd) :
    mirrorComplete (appendSym pd ct coeff bvals maskvals) := by
  rw [mirrorComplete_iff_mirrorE,
    entriesOf_appendSym pd ct coeff bvals maskvals hwf]
  exact mirrorE_append hpd (mirrorE_symBlock ct coeff)

theorem get_all_problem_data_wf (n : ℕ) (C_indices : List (ℕ × ℕ)) :
    (get_all_problem_data n C_indices).A_indices.length =
      (get_all_problem_data n C_indices).A_data.length := by
  rw [get_all_problem_data]
  apply wf_appendSym
  simp

/-- The initial assembly is mirror-complete: diagonal constraints are
symmetric on their own, and the objective-entry constraints are emitted
together with their swapped copies. -/
theorem get_all_problem_data_mirror (n : ℕ) (C_indices : List (ℕ × ℕ)) :
    mirrorComplete (get_all_problem_data n C_indices) := by
  rw [get_all_problem_data]
  apply mirrorComplete_appendSym
  · simp
  · rw [mirrorComplete_iff_mirrorE]
    apply mirrorE_diag
    intro e he
    rw [entriesOf] at he
    have h1 := (List.mem_zip he).1
    rw [List.mem_map] at h1
    obtain ⟨i, _, hi⟩ := h1
    rw [← hi]

theorem cold_start_add_constraint_A_wf (old : ProblemData) (old_n : ℕ)
    (ortho_indices : List (ℕ × ℕ))
    (sum_gt_one_constraints : List (List (ℕ × ℕ)))
    (hwf : old.A_indices.length = old.A_data.length) :
    (cold_start_add_constraint_A old old_n ortho_indices
      sum_gt_one_constraints).A_indices.length =
    (cold_start_add_constraint_A old old_n ortho_indices
      sum_gt_one_constraints).A_data.length := by
  rw [cold_start_add_constraint_A]
  apply wf_appendSym
  apply wf_appendSym
  split
  · apply wf_appendSym
    simp [hwf]
  · simp [hwf]

/-- Constraint extension preserves mirror-completeness: the new diagonal
constraint is symmetric, and the ortho / sum-greater-than-one / mixed blocks
are all emitted in symmetrized form. -/
theorem cold_start_add_constraint_A_mirror (old : ProblemData) (old_n : ℕ)
    (ortho_indices : List (ℕ × ℕ))
    (sum_gt_one_constraints : List (List (ℕ × ℕ)))
    (hwf : old.A_indices.length = old.A_data.length)
    (hold : mirrorComplete old) :
    mirrorComplete (cold_start_add_constraint_A old old_n ortho_indices
      sum_gt_one_constraints) := by
  rw [cold_start_add_constraint_A]
  have hwf1 : (old.A_indices ++ [(old.b.length, old_n + 1 - 1, old_n + 1 - 1)]).length =
      (old.A_data ++ [(1 : ℚ)]).length := by
    simp [hwf]
  have hm1 : mirrorE ((old.A_indices ++
      [(old.b.length, old_n + 1 - 1, old_n + 1 - 1)]).zip
      (old.A_data ++ [(1 : ℚ)])) := by
    rw [List.zip_append hwf]
    apply mirrorE_append hold
    apply mirrorE_diag
    intro e he
    have h1 := (List.mem_zip he).1
    rw [List.mem_singleton] at h1
    rw [h1]
  set pd1 : ProblemData :=
    { A_data := old.A_data ++ [(1 : ℚ)]
      A_indices := old.A_indices ++ [(old.b.length, old_n + 1 - 1, old_n + 1 - 1)]
      b := old.b ++ [(1 : ℚ)]
      b_ineq_mask := old.b_ineq_mask ++ [(0 : ℚ)] } with hpd1
  have hm1' : mirrorComplete pd1 := hm1
  have hwf1' : pd1.A_indices.length = pd1.A_data.length := hwf1
  have h2 : mirrorComplete (if 0 < ortho_indices.length then
      appendSym pd1
        (ortho_indices.enum.map (fun e => (pd1.b.length + e.1, e.2.1, e.2.2)))
        1 (List.replicate ortho_indices.length 0)
        (List.replicate ortho_indices.length 1)
    else pd1) := by
    split
    · exact mirrorComplete_appendSym _ _ _ _ _ hwf1' hm1'
    · exact hm1'
  have h2wf : (if 0 < ortho_indices.length then
      appendSym pd1
        (ortho_indices.enum.map (fun e => (pd1.b.length + e.1, e.2.1, e.2.2)))
        1 (List.replicate ortho_indices.length 0)
        (List.replicate ortho_indices.length 1)
    else pd1).A_indices.length = (if 0 < ortho_indices.length then
      appendSym pd1
        (ortho_indices.enum.map (fun e => (pd1.b.length + e.1, e.2.1, e.2.2)))
        1 (List.replicate ortho_indices.length 0)
        (List.replicate ortho_indices.length 1)
    else pd1).A_data.length := by
    split
    · exact wf_appendSym _ _ _ _ _ hwf1'
    · exact hwf1'
  apply mirrorComplete_appendSym
  · apply wf_appendSym
    exact h2wf
  · exact mirrorComplete_appendSym _ _ _ _ _ h2wf h2

/-- `warm_start_add_constraint` builds the same constraint arrays. -/
theorem warm_start_add_constraint_A_mirror (old : ProblemData) (old_n : ℕ)
    (ortho_indices : List (ℕ × ℕ))
    (sum_gt_one_constraints : List (List (ℕ × ℕ)))
    (hwf : old.A_indices.length = old.A_data.length)
    (hold : mirrorComplete old) :
    mirrorComplete (warm_start_add_constraint_A old old_n ortho_indices
      sum_gt_one_constraints) :=
  cold_start_add_constraint_A_mirror old old_n ortho_indices
    sum_gt_one_constraints hwf hold


/-! ## State initialization and the sketch-mode check
(src/utils/ecc_helpers.py lines 49-97 and 161-170) -/

/-- A dense 2-d array with explicit shape (models a `jax.numpy` array). -/
structure Arr2 where
  rows : ℕ
  cols : ℕ
  entry : ℕ → ℕ → ℚ

/-- A BCOO sparse square matrix: shape plus stored `(row, col)` index pairs
and the matching data. -/
structure BCOOMat where
  shape : ℕ
  indices : List (ℕ × ℕ)
  data : List ℚ

/-- Modelled from the spec: the `SDPState` record of the `utils.common`
module, which is not among the four source files; its fields are the ones
constructed by `initialize_state` (spec section 3, "Solver state" and
"Scaling triple"). -/
structure SDPState where
  C : BCOOMat
  A_indices : List (ℕ × ℕ × ℕ)
  A_data : List ℚ
  b : List ℚ
  b_ineq_mask : List ℚ
  X : Option Arr2
  P : Option Arr2
  Omega : Option Arr2
  y : List ℚ
  z : List ℚ
  tr_X : ℚ
  primal_obj : ℚ
  SCALE_C : ℚ
  SCALE_X : ℚ
  SCALE_A : List ℚ

/-- Modelled from the spec: `scale_sdp_state` from the missing `utils.common`
module applies the scaling triple multiplicatively (spec section 4.6:
"apply multiplicatively to obtain solver-space data"); it is total and in
particular raises nothing.  Only the multiplicative structure matters for the
claims below. -/
def scale_sdp_state (s : SDPState) : SDPState :=
  { s with
    C := { s.C with data := s.C.data.map (fun x => x * s.SCALE_C) }
    A_data := (s.A_indices.zip s.A_data).map
      (fun e => e.2 * s.SCALE_A.getD e.1.1 0)
    b := s.b.enum.map (fun e => e.2 * s.SCALE_X * s.SCALE_A.getD e.1 0)
    X := s.X.map (fun a => { a with entry := fun i j => a.entry i j * s.SCALE_X })
    P := s.P.map (fun a => { a with entry := fun i j => a.entry i j * s.SCALE_X })
    z := s.z.enum.map (fun e => e.2 * s.SCALE_X * s.SCALE_A.getD e.1 0)
    tr_X := s.tr_X * s.SCALE_X
    primal_obj := s.primal_obj * s.SCALE_C * s.SCALE_X }

/-- Sum of squared entries (`jnp.linalg.norm(·)` before the square root). -/
def sumSqList (l : List ℚ) : ℚ := (l.map (fun x => x ^ 2)).sum

/-- The sketch-dimension dispatch shared verbatim by `initialize_state`
(lines 58-67) and `cold_start_add_constraint` (lines 161-170): `-1` selects
the dense primal (`X` an `n × n` zero matrix, no sketch), positive values
select the sketch (`Omega` a seeded Gaussian `n × sketch_dim` test matrix
via the oracle `gauss`, `P` an equally-shaped zero accumulator), and
everything else raises `ValueError("Invalid value for sketch_dim")`. -/
def sketch_mode_select (n : ℕ) (sketch_dim : ℤ) (gauss : ℕ → ℕ → ℚ) :
    Except String (Option Arr2 × Option Arr2 × Option Arr2) :=
  if sketch_dim = -1 then
    Except.ok (some (Arr2.mk n n (fun _ _ => 0)), none, none)
  else if 0 < sketch_dim then
    Except.ok (none,
      some (Arr2.mk n sketch_dim.toNat gauss),
      some (Arr2.mk n sketch_dim.toNat (fun _ _ => 0)))
  else
    Except.error "Invalid value for sketch_dim"

/-- `initialize_state` (src/utils/ecc_helpers.py lines 49-97).  The result
triple of `sketch_mode_select` is `(X, Omega, P)`; `sqrtQ` is the square
root inside `jnp.linalg.norm`, `gauss` the seeded
`jax.random.normal(PRNGKey(0), (n, sketch_dim))` draw.  The trailing `print`
calls (lines 91-94) have no effect on the state. -/
def initialize_state (C : BCOOMat) (sketch_dim : ℤ) (sqrtQ : ℚ → ℚ)
    (gauss : ℕ → ℕ → ℚ) : Except String SDPState :=
  -- line 50
  let pd := get_all_problem_data C.shape C.indices
  let n := C.shape
  let m := pd.b.length
  -- lines 54-56
  let SCALE_X : ℚ := 1 / (n : ℚ)
  let SCALE_C : ℚ := 1 / sqrtQ (sumSqList C.data)
  let SCALE_A : List ℚ := List.replicate m 1
  -- lines 58-67
  match sketch_mode_select n sketch_dim gauss with
  | Except.error e => Except.error e
  | Except.ok (X, Omega, P) =>
    -- lines 69-72
    let y : List ℚ := List.replicate m 0
    let z : List ℚ := List.replicate m 0
    -- lines 74-89 and 96
    Except.ok (scale_sdp_state
      (SDPState.mk C pd.A_indices pd.A_data pd.b pd.b_ineq_mask X P Omega
        y z 0 0 SCALE_C SCALE_X SCALE_A))

theorem sketch_mode_select_error_iff (n : ℕ) (sketch_dim : ℤ)
    (gauss : ℕ → ℕ → ℚ) :
    (∃ e, sketch_mode_select n sketch_dim gauss = Except.error e) ↔
      (sketch_dim = 0 ∨ (sketch_dim < 0 ∧ sketch_dim ≠ -1)) := by
  rw [sketch_mode_select]
  by_cases h1 : sketch_dim = -1
  · simp [h1]
  · by_cases h2 : 0 < sketch_dim
    · simp [h1, h2]
      omega
    · simp [h1, h2]
      omega

theorem sketch_mode_select_dense (n : ℕ) (gauss : ℕ → ℕ → ℚ) :
    sketch_mode_select n (-1) gauss =
      Except.ok (some (Arr2.mk n n (fun _ _ => 0)), none, none) := by
  simp [sketch_mode_select]

theorem sketch_mode_select_sketch (n : ℕ) (sketch_dim : ℤ)
    (gauss : ℕ → ℕ → ℚ) (h : 0 < sketch_dim) :
    sketch_mode_select n sketch_dim gauss =
      Except.ok (none,
        some (Arr2.mk n sketch_dim.toNat gauss),
        some (Arr2.mk n sketch_dim.toNat (fun _ _ => 0))) := by
  have h1 : sketch_dim ≠ -1 := by omega
  simp [sketch_mode_select, h1, h]


theorem initialize_state_error_iff (C : BCOOMat) (sketch_dim : ℤ)
    (sqrtQ : ℚ → ℚ) (gauss : ℕ → ℕ → ℚ) :
    (∃ e, initialize_state C sketch_dim sqrtQ gauss = Except.error e) ↔
      (sketch_dim = 0 ∨ (sketch_dim < 0 ∧ sketch_dim ≠ -1)) := by
  rw [initialize_state]
  by_cases h1 : sketch_dim = -1
  · rw [h1, sketch_mode_select_dense]
    simp
  · by_cases h2 : 0 < sketch_dim
    · rw [sketch_mode_select_sketch _ _ _ h2]
      simp
      omega
    · have herr : sketch_mode_select C.shape sketch_dim gauss =
          Except.error "Invalid value for sketch_dim" := by
        simp [sketch_mode_select, h1, h2]
      rw [herr]
      simp
      omega

theorem initialize_state_dense (C : BCOOMat) (sqrtQ : ℚ → ℚ)
    (gauss : ℕ → ℕ → ℚ) :
    ∃ st, initialize_state C (-1) sqrtQ gauss = Except.ok st ∧
      st.X.isSome = true ∧ st.Omega = none ∧ st.P = none := by
  rw [initialize_state, sketch_mode_select_dense]
  exact ⟨_, rfl, rfl, rfl, rfl⟩

theorem initialize_state_sketch (C : BCOOMat) (sketch_dim : ℤ)
    (sqrtQ : ℚ → ℚ) (gauss : ℕ → ℕ → ℚ) (h : 0 < sketch_dim) :
    ∃ st, initialize_state C sketch_dim sqrtQ gauss = Except.ok st ∧
      st.X = none ∧
      (∃ a, st.Omega = some a ∧ a.rows = C.shape ∧
        a.cols = sketch_dim.toNat) ∧
      (∃ a, st.P = some a ∧ a.rows = C.shape ∧ a.cols = sketch_dim.toNat) := by
  rw [initialize_state, sketch_mode_select_sketch _ _ _ h]
  exact ⟨_, rfl, rfl, ⟨_, rfl, rfl, rfl⟩, ⟨_, rfl, rfl, rfl⟩⟩

/-! ## Lanczos tridiagonalization loop (src/solver.py lines 15-80)

`approx_k_min_eigen` builds the tridiagonal model with a
`jax.lax.while_loop` over `tri_diag_cond_func` / `tri_diag_body_func`
(line 65).  The loop condition enforces `t <= num_iters` and the body
increments `t`, so the loop runs at most `num_iters` times; it is modelled
with `boundedWhileLoop` at fuel `num_iters + 1`, which is proven below never
to be exhausted.  The operator `M` is a function argument in the source as
well; the random start vector `jax.random.normal(rng, (n,))` is the oracle
`gauss`, and `jnp.linalg.norm` square roots go through `sqrtQ`.  (The rest
of `approx_k_min_eigen` solves the small tridiagonal eigenproblem and, as
written, also ends in `embed()` / `exit()` at lines 79-80.) -/

/-- The `TriDiagStateStruct` namedtuple (src/solver.py lines 24-26).  `V` is
the `(num_iters + 2) × n` buffer of line 57, modelled as an index-to-row
function updated in place. -/
structure TriDiagState (n : ℕ) where
  t : ℕ
  V : ℕ → Fin n → ℚ
  diag : ℕ → ℚ
  off_diag : ℕ → ℚ

/-- `tri_diag_cond_func` (lines 28-32): the uint8 predicate arithmetic
amounts to `(off_diag[t] > eps or t == 1) and t <= num_iters`. -/
def tri_diag_cond_func {n : ℕ} (eps : ℚ) (num_iters : ℕ)
    (s : TriDiagState n) : Bool :=
  (decide (s.off_diag s.t > eps) || decide (s.t = 1)) &&
    decide (s.t ≤ num_iters)

/-- `tri_diag_body_func` (lines 34-51).  When `jnp.linalg.norm(v_next)` is
zero the source would divide by zero producing `nan`s; here `x / 0 = 0`. -/
def tri_diag_body_func {n : ℕ} (M : (Fin n → ℚ) → Fin n → ℚ)
    (sqrtQ : ℚ → ℚ) (s : TriDiagState n) : TriDiagState n :=
  -- line 38
  let transformed_v := fun r => M (s.V s.t) r - s.off_diag s.t * s.V (s.t - 1) r
  -- line 39
  let diag := Function.update s.diag s.t (dotQ (s.V s.t) transformed_v)
  -- line 40
  let v_next := fun r => transformed_v r - diag s.t * s.V s.t r
  -- lines 43-44: full reorthogonalization, `lax.fori_loop(1, t + 1, ...)`
  let v_next := (List.range' 1 s.t).foldl
    (fun vec i => fun r => vec r - dotQ vec (s.V i) * s.V i r) v_next
  -- line 46
  let off_diag := Function.update s.off_diag (s.t + 1) (sqrtQ (normSq v_next))
  -- line 47
  let v_next := fun r => v_next r / off_diag (s.t + 1)
  -- line 48
  let V := Function.update s.V (s.t + 1) v_next
  -- lines 49-51
  TriDiagState.mk (s.t + 1) V diag off_diag

/-- Lines 53-63: normalized random start vector in row 1 of the zero
buffer, `t = 1`, zero tridiagonal entries. -/
def tri_diag_init (n : ℕ) (sqrtQ : ℚ → ℚ) (gauss : Fin n → ℚ) :
    TriDiagState n :=
  let v_1 := fun r => gauss r / sqrtQ (normSq gauss)
  TriDiagState.mk 1 (Function.update (fun _ => fun _ => 0) 1 v_1)
    (fun _ => 0) (fun _ => 0)

/-- The `lax.while_loop` at line 65, with its executed-iteration count. -/
def tri_diag_loop (n : ℕ) (M : (Fin n → ℚ) → Fin n → ℚ) (sqrtQ : ℚ → ℚ)
    (gauss : Fin n → ℚ) (eps : ℚ) (num_iters : ℕ) : TriDiagState n × ℕ :=
  boundedWhileLoop (tri_diag_cond_func eps num_iters)
    (tri_diag_body_func M sqrtQ) (num_iters + 1) (tri_diag_init n sqrtQ gauss)

/-- Bounding the executed steps of a loop whose condition caps an
incrementing counter. -/
theorem boundedWhileLoop_steps_of_counter_cap {σ : Type*} (cond : σ → Bool)
    (body : σ → σ) (f : σ → ℕ) (B : ℕ)
    (hstep : ∀ t, f (body t) = f t + 1)
    (hcond : ∀ t, cond t = true → f t ≤ B) :
    ∀ fuel s, (boundedWhileLoop cond body fuel s).2 = 0 ∨
      (boundedWhileLoop cond body fuel s).2 + f s ≤ B + 1 := by
  intro fuel
  induction fuel with
  | zero => intro s; left; rfl
  | succ k ih =>
    intro s
    rw [boundedWhileLoop]
    by_cases hc : cond s
    · simp only [hc, if_true]
      right
      have hfs := hcond s hc
      rcases ih (body s) with h0 | hrec
      · rw [h0]
        omega
      · rw [hstep s] at hrec
        omega
    · left
      simp [hc]

/-- The Lanczos loop executes at most `num_iters` iterations. -/
theorem tri_diag_loop_steps_le (n : ℕ) (M : (Fin n → ℚ) → Fin n → ℚ)
    (sqrtQ : ℚ → ℚ) (gauss : Fin n → ℚ) (eps : ℚ) (num_iters : ℕ) :
    (tri_diag_loop n M sqrtQ gauss eps num_iters).2 ≤ num_iters := by
  have h := boundedWhileLoop_steps_of_counter_cap
    (tri_diag_cond_func eps num_iters) (tri_diag_body_func M sqrtQ)
    (fun s => s.t) num_iters (fun t => rfl)
    (fun t ht => by
      have := (Bool.and_eq_true _ _).mp ht
      exact of_decide_eq_true this.2)
    (num_iters + 1) (tri_diag_init n sqrtQ gauss)
  have ht : (tri_diag_init n sqrtQ gauss).t = 1 := rfl
  unfold tri_diag_loop
  rcases h with h0 | h1
  · rw [h0]
    exact Nat.zero_le _
  · rw [ht] at h1
    omega

/-- The fuel `num_iters + 1` is never exhausted: the final state of the
Lanczos loop fails the loop condition, exactly as for `lax.while_loop`. -/
theorem tri_diag_loop_cond_false (n : ℕ) (M : (Fin n → ℚ) → Fin n → ℚ)
    (sqrtQ : ℚ → ℚ) (gauss : Fin n → ℚ) (eps : ℚ) (num_iters : ℕ) :
    tri_diag_cond_func eps num_iters
      (tri_diag_loop n M sqrtQ gauss eps num_iters).1 = false := by
  apply boundedWhileLoop_cond_of_lt
  exact Nat.lt_succ_of_le (tri_diag_loop_steps_le n M sqrtQ gauss eps num_iters)

/-- Characterization of the stopping condition: the loop has stopped exactly
when the budget is exhausted (`t > num_iters`) or the freshest off-diagonal
entry is at most `eps` at an iteration other than the first. -/
theorem tri_diag_cond_false_iff {n : ℕ} (eps : ℚ) (num_iters : ℕ)
    (s : TriDiagState n) :
    tri_diag_cond_func eps num_iters s = false ↔
      (num_iters < s.t ∨ (s.t ≠ 1 ∧ s.off_diag s.t ≤ eps)) := by
  rw [tri_diag_cond_func]
  simp only [Bool.and_eq_false_iff, Bool.or_eq_false_iff,
    decide_eq_false_iff_not, not_lt, not_le]
  constructor
  · rintro (⟨h1, h2⟩ | h3)
    · exact Or.inr ⟨h2, h1⟩
    · exact Or.inl h3
  · rintro (h3 | ⟨h2, h1⟩)
    · exact Or.inr h3
    · exact Or.inl ⟨h1, h2⟩

/-- With a positive iteration budget, the first iteration always runs,
whatever the off-diagonal values: at `t = 1` the condition only checks the
budget. -/
theorem tri_diag_loop_steps_pos (n : ℕ) (M : (Fin n → ℚ) → Fin n → ℚ)
    (sqrtQ : ℚ → ℚ) (gauss : Fin n → ℚ) (eps : ℚ) (num_iters : ℕ)
    (h : 1 ≤ num_iters) :
    1 ≤ (tri_diag_loop n M sqrtQ gauss eps num_iters).2 := by
  rw [tri_diag_loop]
  apply boundedWhileLoop_pos_steps
  · omega
  · rw [tri_diag_cond_func]
    simp [tri_diag_init, h]


/-! ## Warm-start re-indexing (src/scripts/warm_start_qap_specbm.py)

`fill_constraint_index_map` (lines 19-27) builds the old-to-new constraint
index map by scanning the two index arrays in lockstep; lines 177-178 then
scatter the old dual `y` and the unscaled old slack `z` into zero-initialized
arrays of the new size `m` at the mapped positions. -/

/-- `fill_constraint_index_map` (lines 19-27).  The loop walks every row of
`new_A_indices`, advancing `old_idx` on each `(row, col)` match and recording
`constraint_index_map[old_row[0]] = curr_row[0]`.  The preallocated
`np.empty` output is modelled as a zero-initialized function; the
`numba.njit` body performs an unchecked read `old_A_indices[old_idx]` that
can go past the end of the array once every old row has been matched, which
is modelled as a read that matches nothing. -/
def fill_constraint_index_map (old_A new_A : List (ℕ × ℕ × ℕ)) : ℕ → ℕ :=
  (new_A.foldl
    (fun (st : ℕ × (ℕ → ℕ)) curr_row =>
      match old_A.get? st.1 with
      | none => st
      | some old_row =>
        if curr_row.2.1 = old_row.2.1 ∧ curr_row.2.2 = old_row.2.2 then
          (st.1 + 1, Function.update st.2 old_row.1 curr_row.1)
        else st)
    (0, fun _ => 0)).2

/-- `jnp.zeros((m,)).at[idxs].set(vals)`: scatter `vals` into a
zero-initialized array at positions `idxs` (later writes win on duplicate
indices). -/
def scatter_set (idxs : List ℕ) (vals : List ℚ) : ℕ → ℚ :=
  (idxs.zip vals).foldl (fun acc p => Function.update acc p.1 p.2)
    (fun _ => 0)

/-- Line 177: `y = jnp.zeros((m,)).at[constraint_index_map].set(y)`. -/
def warm_start_y (cmap : ℕ → ℕ) (old_m : ℕ) (y : List ℚ) : ℕ → ℚ :=
  scatter_set ((List.range old_m).map cmap) y

/-- Line 178:
`z = jnp.zeros((m,)).at[constraint_index_map].set((z / SCALE_A) / SCALE_X)`. -/
def warm_start_z (cmap : ℕ → ℕ) (old_m : ℕ) (z SCALE_A : List ℚ)
    (SCALE_X : ℚ) : ℕ → ℚ :=
  scatter_set ((List.range old_m).map cmap)
    ((z.zip SCALE_A).map (fun p => p.1 / p.2 / SCALE_X))

theorem foldl_update_ne (l : List (ℕ × ℚ)) (acc : ℕ → ℚ) (j : ℕ)
    (h : ∀ p ∈ l, p.1 ≠ j) :
    (l.foldl (fun a p => Function.update a p.1 p.2) acc) j = acc j := by
  induction l generalizing acc with
  | nil => rfl
  | cons p ps ih =>
    rw [List.foldl_cons, ih _ (fun q hq => h q (List.mem_cons_of_mem _ hq))]
    exact Function.update_noteq (Ne.symm (h p (List.mem_cons_self _ _))) _ _

/-- Positions outside the scattered index list keep their zero
initialization. -/
theorem scatter_set_not_mem (idxs : List ℕ) (vals : List ℚ) (j : ℕ)
    (hj : j ∉ idxs) : scatter_set idxs vals j = 0 := by
  rw [scatter_set, foldl_update_ne]
  intro p hp
  have h1 := (List.mem_zip hp).1
  intro heq
  exact hj (heq ▸ h1)

theorem foldl_update_at (idxs : List ℕ) (vals : List ℚ) (acc : ℕ → ℚ)
    (hnd : idxs.Nodup) (hlen : idxs.length = vals.length) {k : ℕ}
    (hk : k < idxs.length) :
    ((idxs.zip vals).foldl (fun a p => Function.update a p.1 p.2) acc)
      (idxs.getD k 0) = vals.getD k 0 := by
  induction idxs generalizing vals acc k with
  | nil => simp at hk
  | cons a as ih =>
    obtain ⟨v, vs, rfl⟩ :=
      List.exists_cons_of_ne_nil (l := vals) (by
        intro h
        rw [h] at hlen
        simp at hlen)
    rw [List.zip_cons_cons, List.foldl_cons]
    rcases Nat.eq_zero_or_pos k with rfl | hkpos
    · rw [List.getD_cons_zero, List.getD_cons_zero]
      rw [foldl_update_ne]
      · exact Function.update_same _ _ _
      · intro p hp heq
        have h1 := (List.mem_zip hp).1
        have h2 := (List.nodup_cons.mp hnd).1
        exact h2 (heq ▸ h1)
    · obtain ⟨k2, rfl⟩ :=
        Nat.exists_eq_succ_of_ne_zero (Nat.pos_iff_ne_zero.mp hkpos)
      rw [List.getD_cons_succ, List.getD_cons_succ]
      exact ih vs _ (List.nodup_cons.mp hnd).2 (by simpa using hlen)
        (by simpa using hk)

/-- With distinct indices, position `idxs[k]` receives `vals[k]`. -/
theorem scatter_set_at (idxs : List ℕ) (vals : List ℚ) (hnd : idxs.Nodup)
    (hlen : idxs.length = vals.length) {k : ℕ} (hk : k < idxs.length) :
    scatter_set idxs vals (idxs.getD k 0) = vals.getD k 0 :=
  foldl_update_at idxs vals _ hnd hlen hk


/-! ## Graph sparsification: `create_sparse_laplacian`
(src/utils/ecc_helpers.py lines 349-444)

This is the one solver component that draws from the process-global NumPy
generator: `np.random.binomial` at lines 389 and 391 and
`np.random.multinomial` at lines 415 and 429 take no seed or `Generator`
argument.  The ambient generator state is therefore an extra input of the
embedding, `ambient`, indexed by call site (0/1 for the two binomial draws,
2/3 for the two multinomial draws); everything in the function's actual
Python parameter list is `edge_weights` and `eps`.  `np.log` is the oracle
`logQ`, square roots are `sqrtQ` and `np.linalg.pinv` is the oracle `pinv`
(its value is irrelevant to the claims below).

2-d arrays are here plain functions `ℕ → ℕ → ℚ` with the shapes tracked in
comments; `scipy.sparse.csgraph.laplacian` of a symmetric matrix with empty
diagonal is `degree diagonal minus adjacency`. -/

/-- A COO sparse matrix: parallel data/row/col arrays plus the shape. -/
structure Coo where
  data : List ℚ
  row : List ℕ
  col : List ℕ
  rows : ℕ
  cols : ℕ

/-- Dense reading of a COO matrix (duplicate positions sum). -/
def Coo.toDense (c : Coo) : ℕ → ℕ → ℚ := fun i j =>
  (((c.data.zip (c.row.zip c.col)).filter
    (fun e => decide (e.2.1 = i ∧ e.2.2 = j))).map (fun e => e.1)).sum

/-- Dense matrix product with explicit inner dimension. -/
def mmul (a : ℕ → ℕ → ℚ) (inner : ℕ) (b : ℕ → ℕ → ℚ) : ℕ → ℕ → ℚ :=
  fun i j => ∑ t ∈ Finset.range inner, a i t * b t j

/-- Dense transpose. -/
def tdense (a : ℕ → ℕ → ℚ) : ℕ → ℕ → ℚ := fun i j => a j i

/-- `create_sparse_laplacian` (lines 349-444). -/
def create_sparse_laplacian (edge_weights : Coo) (eps : ℚ)
    (logQ sqrtQ : ℚ → ℚ) (pinv : (ℕ → ℕ → ℚ) → ℕ → ℕ → ℚ)
    (ambient : ℕ → ℕ → ℕ → ℚ) : ℕ → ℕ → ℚ :=
  -- lines 350-358: split the edges by sign of the weight
  let entries := edge_weights.data.zip (edge_weights.row.zip edge_weights.col)
  let posE := entries.filter (fun e => decide (0 < e.1))
  let negE := entries.filter (fun e => ! decide (0 < e.1))
  let pos_graph : Coo := Coo.mk (posE.map (fun e => e.1))
    (posE.map (fun e => e.2.1)) (posE.map (fun e => e.2.2))
    edge_weights.rows edge_weights.cols
  let neg_graph : Coo := Coo.mk (negE.map (fun e => -e.1))
    (negE.map (fun e => e.2.1)) (negE.map (fun e => e.2.2))
    edge_weights.rows edge_weights.cols
  -- lines 360-361
  let pos_n := pos_graph.rows
  let pos_m := pos_graph.data.length
  let neg_n := neg_graph.rows
  let neg_m := neg_graph.data.length
  -- lines 363-364: `k = ceil(log(n) / eps**2)`
  let pos_k := (⌈logQ (pos_n : ℚ) / eps ^ 2⌉).toNat
  let neg_k := (⌈logQ (neg_n : ℚ) / eps ^ 2⌉).toNat
  -- lines 366-369: `m × m` diagonal edge-weight matrices
  let pos_diag_edge_mx : ℕ → ℕ → ℚ := fun i j =>
    if i = j ∧ i < pos_m then pos_graph.data.getD i 0 else 0
  let neg_diag_edge_mx : ℕ → ℕ → ℚ := fun i j =>
    if i = j ∧ i < neg_m then neg_graph.data.getD i 0 else 0
  -- lines 371-380: `m × n` incidence matrices (`+1` at the row endpoint,
  -- `-1` at the col endpoint)
  let pos_incidence_mx : ℕ → ℕ → ℚ := fun e v =>
    if e < pos_m then
      (if pos_graph.row.getD e 0 = v then 1 else 0) +
        (if pos_graph.col.getD e 0 = v then -1 else 0)
    else 0
  let neg_incidence_mx : ℕ → ℕ → ℚ := fun e v =>
    if e < neg_m then
      (if neg_graph.row.getD e 0 = v then 1 else 0) +
        (if neg_graph.col.getD e 0 = v then -1 else 0)
    else 0
  -- lines 382-383: `L = incidenceᵀ · diag · incidence`
  let pos_laplacian_mx :=
    mmul (mmul (tdense pos_incidence_mx) pos_m pos_diag_edge_mx) pos_m
      pos_incidence_mx
  let neg_laplacian_mx :=
    mmul (mmul (tdense neg_incidence_mx) neg_m neg_diag_edge_mx) neg_m
      neg_incidence_mx
  -- lines 385-387: small matrices are returned exactly
  if pos_n < 15 then
    fun i j => pos_laplacian_mx i j - neg_laplacian_mx i j
  else
    -- lines 389-392: ambient `np.random.binomial(1, 0.5, (m, k))` draws,
    -- rescaled to `±1/sqrt(k)`
    let pos_rand_proj : ℕ → ℕ → ℚ := fun i j =>
      (1 / sqrtQ (pos_k : ℚ)) * (2 * ambient 0 i j - 1)
    let neg_rand_proj : ℕ → ℕ → ℚ := fun i j =>
      (1 / sqrtQ (neg_k : ℚ)) * (2 * ambient 1 i j - 1)
    -- lines 394-401: resistance embeddings
    -- (`(projᵀ · sqrt(diag) · incidence · pinv(L))ᵀ`, shape `n × k`)
    let pos_sqrt_diag : ℕ → ℕ → ℚ := fun i j =>
      if i = j ∧ i < pos_m then sqrtQ (pos_graph.data.getD i 0) else 0
    let neg_sqrt_diag : ℕ → ℕ → ℚ := fun i j =>
      if i = j ∧ i < neg_m then sqrtQ (neg_graph.data.getD i 0) else 0
    let pos_resistance_embeds := tdense (mmul (mmul (mmul
      (tdense pos_rand_proj) pos_m pos_sqrt_diag) pos_m pos_incidence_mx)
      pos_n (pinv pos_laplacian_mx))
    let neg_resistance_embeds := tdense (mmul (mmul (mmul
      (tdense neg_rand_proj) neg_m neg_sqrt_diag) neg_m neg_incidence_mx)
      neg_n (pinv neg_laplacian_mx))
    -- lines 403-404: squared row norms of `incidence · embeds`
    let pos_resistances : ℕ → ℚ := fun e => ∑ j ∈ Finset.range pos_k,
      (mmul pos_incidence_mx pos_n pos_resistance_embeds e j) ^ 2
    let neg_resistances : ℕ → ℚ := fun e => ∑ j ∈ Finset.range neg_k,
      (mmul neg_incidence_mx neg_n neg_resistance_embeds e j) ^ 2
    -- lines 406-407: `energies = diag_edge · resistances`
    let pos_energies : ℕ → ℚ := fun e =>
      if e < pos_m then pos_graph.data.getD e 0 * pos_resistances e else 0
    let neg_energies : ℕ → ℚ := fun e =>
      if e < neg_m then neg_graph.data.getD e 0 * neg_resistances e else 0
    -- lines 409-410 (`x / 0 = 0` where NumPy would produce `nan`)
    let pos_probs : ℕ → ℚ := fun e =>
      pos_energies e / ∑ t ∈ Finset.range pos_m, pos_energies t
    let neg_probs : ℕ → ℚ := fun e =>
      neg_energies e / ∑ t ∈ Finset.range neg_m, neg_energies t
    -- line 412
    let num_sample_edges :=
      (⌈(pos_n : ℚ) * logQ (pos_n : ℚ) / (2 * eps ^ 2)⌉).toNat
    -- lines 414-426: subsample the positive edges
    let sampled_pos_laplacian :=
      if num_sample_edges < pos_m then
        -- line 415: ambient `np.random.multinomial` draw, shape `(1, m)`
        let sampled_edges : ℕ → ℚ := fun e => ambient 2 0 e
        -- lines 416-417
        let sampled_edge_weights : ℕ → ℚ := fun e =>
          (if e < pos_m then sampled_edges e * pos_graph.data.getD e 0
            else 0) / ((num_sample_edges : ℚ) * pos_probs e)
        -- lines 418-422: keep the edges with nonzero sampled weight,
        -- with their original data
        let keepIdx := (List.range pos_m).filter
          (fun e => decide (sampled_edge_weights e ≠ 0))
        let sampled_pos_graph0 : Coo := Coo.mk
          (keepIdx.map (fun e => pos_graph.data.getD e 0))
          (keepIdx.map (fun e => pos_graph.row.getD e 0))
          (keepIdx.map (fun e => pos_graph.col.getD e 0)) pos_n pos_n
        -- line 423
        let G : ℕ → ℕ → ℚ := fun i j =>
          sampled_pos_graph0.toDense i j + sampled_pos_graph0.toDense j i
        -- line 424: csgraph laplacian, degree diagonal minus adjacency
        fun i j =>
          (if i = j then ∑ t ∈ Finset.range pos_n, G i t else 0) - G i j
      else pos_laplacian_mx
    -- lines 428-440: subsample the negative edges, same construction
    let sampled_neg_laplacian :=
      if num_sample_edges < neg_m then
        let sampled_edges : ℕ → ℚ := fun e => ambient 3 0 e
        let sampled_edge_weights : ℕ → ℚ := fun e =>
          (if e < neg_m then sampled_edges e * neg_graph.data.getD e 0
            else 0) / ((num_sample_edges : ℚ) * neg_probs e)
        let keepIdx := (List.range neg_m).filter
          (fun e => decide (sampled_edge_weights e ≠ 0))
        let sampled_neg_graph0 : Coo := Coo.mk
          (keepIdx.map (fun e => neg_graph.data.getD e 0))
          (keepIdx.map (fun e => neg_graph.row.getD e 0))
          (keepIdx.map (fun e => neg_graph.col.getD e 0)) neg_n neg_n
        let G : ℕ → ℕ → ℚ := fun i j =>
          sampled_neg_graph0.toDense i j + sampled_neg_graph0.toDense j i
        fun i j =>
          (if i = j then ∑ t ∈ Finset.range neg_n, G i t else 0) - G i j
      else neg_laplacian_mx
    -- lines 442-444
    fun i j => sampled_pos_laplacian i j - sampled_neg_laplacian i j

/-- On the small-matrix path (`shape[0] < 15`, lines 385-387) the function
returns before any `np.random` call: the result does not depend on the
ambient generator state. -/
theorem create_sparse_laplacian_small_deterministic (edge_weights : Coo)
    (eps : ℚ) (logQ sqrtQ : ℚ → ℚ) (pinv : (ℕ → ℕ → ℚ) → ℕ → ℕ → ℚ)
    (a1 a2 : ℕ → ℕ → ℕ → ℚ) (h : edge_weights.rows < 15) :
    create_sparse_laplacian edge_weights eps logQ sqrtQ pinv a1 =
      create_sparse_laplacian edge_weights eps logQ sqrtQ pinv a2 := by
  rw [create_sparse_laplacian, create_sparse_laplacian]
  simp only [if_pos h]


/-! ## Claim theorems -/

/-- Generic getD of a mapped range. -/
theorem range_map_getD {α : Type*} (f : ℕ → α) {n k : ℕ} (h : k < n) (d : α) :
    ((List.range n).map f).getD k d = f k := by
  have hlen : k < ((List.range n).map f).length := by simpa using h
  rw [List.getD_eq_getElem _ _ hlen, List.getElem_map, List.getElem_range]

/-- C1 counterexample: `max_iters` does not bound the outer loop's iteration
count.  `specbm` never reads its `max_iters` parameter: the only outer-loop
invocation, the commented-out line 359, is
`bounded_while_loop(cond_func, body_func, init_state, max_steps=10)` with the
constant budget `10`.  Run from a fresh state (`t = 0` keeps `cond_func`
true) with that budget, the loop executes at least one iteration even though
`max_iters = 0` — here at the concrete one-dimensional instance whose body
is the real `body_func` state update. -/
theorem claim_C1_counterexample :
    ¬ ((boundedWhileLoop (cond_func (n := 1) (m := 1) (K := 1 + 0) 1)
      (fun s => body_func_update Nat.one_pos (fun v => v) (fun _ => fun _ => 0)
        (fun M => (fun c => M c c, 1)) (fun _ => (fun _ => 0, 0))
        (fun q => q) (fun _ => 0) 1 1 (1 / 4) s 0 0)
      10 (StateStruct.mk 0 0 0 0 0 0 0 0 0 0 0 0)).2 ≤ 0) := by
  simp only [not_le]
  refine boundedWhileLoop_pos_steps _ _ 10 _ (by norm_num) ?_
  rw [cond_func]
  simp

/-- C1 (amended): the outer loop as the program (dead) invokes it — driven
by `cond_func` at the constant budget `max_steps = 10` of line 359, not by
the unused `max_iters` parameter — stops exactly when `t > 0` and the
relative gap `(pen_dual_obj - lb_spec_est) / (1 + pen_dual_obj)` is at most
`eps`, or when the budget of `10` is exhausted; it executes at most `10`
iterations, and when the cap is the reason for stopping the final `t`
equals `10` (the body advances `t` by one from `t = 0`). -/
theorem claim_C1_amended {n m K : ℕ} (eps : ℚ)
    (body : StateStruct n m K → StateStruct n m K)
    (s0 : StateStruct n m K)
    (hbody : ∀ s, (body s).t = s.t + 1) (ht0 : s0.t = 0) :
    (boundedWhileLoop (cond_func eps) body 10 s0).2 ≤ 10 ∧
    (∀ s : StateStruct n m K, cond_func eps s = false ↔
      (0 < s.t ∧
        (s.pen_dual_obj - s.lb_spec_est) / (1 + s.pen_dual_obj) ≤ eps)) ∧
    (cond_func eps (boundedWhileLoop (cond_func eps) body 10 s0).1 =
        false ∨
      (boundedWhileLoop (cond_func eps) body 10 s0).1.t = 10) := by
  refine ⟨boundedWhileLoop_steps_le _ _ _ _,
    fun s => cond_func_false_iff eps s, ?_⟩
  rcases Nat.lt_or_ge (boundedWhileLoop (cond_func eps) body 10 s0).2
    10 with h | h
  · exact Or.inl (boundedWhileLoop_cond_of_lt _ _ _ _ h)
  · right
    have hc : (boundedWhileLoop (cond_func eps) body 10 s0).1.t =
        s0.t + (boundedWhileLoop (cond_func eps) body 10 s0).2 :=
      boundedWhileLoop_counter (cond_func eps) body (fun s => s.t) 10 s0 hbody
    have hle := boundedWhileLoop_steps_le (cond_func eps) body 10 s0
    rw [ht0] at hc
    omega

/-- Witness for C1 (amended) at a concrete one-dimensional instance whose
body is the real `body_func` state update. -/
theorem claim_C1_witness :
    (boundedWhileLoop (cond_func (n := 1) (m := 1) (K := 1 + 0) 1)
      (fun s => body_func_update Nat.one_pos (fun v => v) (fun _ => fun _ => 0)
        (fun M => (fun c => M c c, 1)) (fun _ => (fun _ => 0, 0))
        (fun q => q) (fun _ => 0) 1 1 (1 / 4) s 0 0)
      10 (StateStruct.mk 0 0 0 0 0 1 0 0 0 0 0 0)).2 ≤ 10 ∧
    (∀ s : StateStruct 1 1 (1 + 0), cond_func 1 s = false ↔
      (0 < s.t ∧
        (s.pen_dual_obj - s.lb_spec_est) / (1 + s.pen_dual_obj) ≤ 1)) ∧
    (cond_func 1 (boundedWhileLoop (cond_func (n := 1) (m := 1) (K := 1 + 0) 1)
      (fun s => body_func_update Nat.one_pos (fun v => v) (fun _ => fun _ => 0)
        (fun M => (fun c => M c c, 1)) (fun _ => (fun _ => 0, 0))
        (fun q => q) (fun _ => 0) 1 1 (1 / 4) s 0 0)
      10 (StateStruct.mk 0 0 0 0 0 1 0 0 0 0 0 0)).1 = false ∨
      (boundedWhileLoop (cond_func (n := 1) (m := 1) (K := 1 + 0) 1)
        (fun s => body_func_update Nat.one_pos (fun v => v) (fun _ => fun _ => 0)
        (fun M => (fun c => M c c, 1)) (fun _ => (fun _ => 0, 0))
        (fun q => q) (fun _ => 0) 1 1 (1 / 4) s 0 0)
        10 (StateStruct.mk 0 0 0 0 0 1 0 0 0 0 0 0)).1.t = 10) :=
  claim_C1_amended 1 _ _ (fun s => rfl) rfl

/-- C3: every assembled constraint operator — from the initial assembly and
from each constraint-extension function — is mirror-complete: every
off-diagonal triple `(c, i, j)` has the mirrored triple `(c, j, i)` with the
same coefficient. -/
theorem claim_C3_mirror_symmetry :
    (∀ (n : ℕ) (C_indices : List (ℕ × ℕ)),
      mirrorComplete (get_all_problem_data n C_indices)) ∧
    (∀ (old : ProblemData) (old_n : ℕ) (ortho : List (ℕ × ℕ))
        (sgo : List (List (ℕ × ℕ))),
      old.A_indices.length = old.A_data.length → mirrorComplete old →
      mirrorComplete (cold_start_add_constraint_A old old_n ortho sgo)) ∧
    (∀ (old : ProblemData) (old_n : ℕ) (ortho : List (ℕ × ℕ))
        (sgo : List (List (ℕ × ℕ))),
      old.A_indices.length = old.A_data.length → mirrorComplete old →
      mirrorComplete (warm_start_add_constraint_A old old_n ortho sgo)) :=
  ⟨get_all_problem_data_mirror,
   fun old old_n ortho sgo hwf hm =>
     cold_start_add_constraint_A_mirror old old_n ortho sgo hwf hm,
   fun old old_n ortho sgo hwf hm =>
     warm_start_add_constraint_A_mirror old old_n ortho sgo hwf hm⟩

/-- Witness for C3: a concrete extension of a concrete initial assembly. -/
theorem claim_C3_witness :
    mirrorComplete (cold_start_add_constraint_A
      (get_all_problem_data 2 [(0, 1)]) 2 [(0, 1)] [[(0, 1)]]) :=
  claim_C3_mirror_symmetry.2.1 _ 2 [(0, 1)] [[(0, 1)]]
    (get_all_problem_data_wf 2 [(0, 1)])
    (claim_C3_mirror_symmetry.1 2 [(0, 1)])

/-- C4 counterexample: the fast-path test is not "input already feasible".
The vector `[-1e-7]` is skipped (its entry exceeds `-1e-6` and its sum is
below one) although it is not non-negative. -/
theorem claim_C4_counterexample :
    ¬ (noProjectionNeeded [-(1 / 10000000 : ℚ)] = true ↔
      ((∀ a ∈ [-(1 / 10000000 : ℚ)], (0 : ℚ) ≤ a) ∧
        ([-(1 / 10000000 : ℚ)] : List ℚ).sum ≤ 1)) := by
  intro h
  have h1 : noProjectionNeeded [-(1 / 10000000 : ℚ)] = true := by
    rw [noProjectionNeeded]
    simp only [List.sum_cons, List.sum_nil, List.all_cons, List.all_nil,
      Bool.and_true, Bool.and_eq_true, decide_eq_true_eq]
    norm_num
  have h2 := (h.mp h1).1 _ (List.mem_cons_self _ _)
  norm_num at h2

/-- C4 (amended): for a non-empty input the projection output is
non-negative, sums to exactly one and is Euclidean-nearest on the simplex;
the projection is skipped — input returned unchanged — exactly when the sum
is strictly below one and every entry exceeds `-1e-6` (a tolerance
relaxation of feasibility, not feasibility itself). -/
theorem claim_C4_amended (v : List ℚ) (hne : v ≠ []) :
    (∀ a ∈ proj_simplex v, 0 ≤ a) ∧
    (proj_simplex v).sum = 1 ∧
    (∀ x : List ℚ, x.length = v.length → (∀ a ∈ x, 0 ≤ a) → x.sum = 1 →
      sqDist (proj_simplex v) v ≤ sqDist x v) ∧
    (noProjectionNeeded v = true ↔
      (v.sum < 1 ∧ ∀ a ∈ v, -(1 / 1000000 : ℚ) < a)) ∧
    (noProjectionNeeded v = true → simplexStep v = v) ∧
    (noProjectionNeeded v = false → simplexStep v = proj_simplex v) := by
  refine ⟨proj_simplex_nonneg v, proj_simplex_sum v hne,
    fun x hl h0 h1 => proj_simplex_nearest v x hne hl h0 h1, ?_, ?_, ?_⟩
  · rw [noProjectionNeeded]
    rw [Bool.and_eq_true, decide_eq_true_eq, List.all_eq_true]
    simp
  · intro h
    rw [simplexStep, if_pos h]
  · intro h
    rw [simplexStep, if_neg (by simp [h])]

/-- Witness for C4 at the concrete input `[3]`, compared with the feasible
point `[1]`. -/
theorem claim_C4_witness :
    (∀ a ∈ proj_simplex [(3 : ℚ)], 0 ≤ a) ∧
    (proj_simplex [(3 : ℚ)]).sum = 1 ∧
    sqDist (proj_simplex [(3 : ℚ)]) [(3 : ℚ)] ≤ sqDist [(1 : ℚ)] [(3 : ℚ)] := by
  have h := claim_C4_amended [(3 : ℚ)] (by simp)
  exact ⟨h.1, h.2.1, h.2.2.1 [(1 : ℚ)] (by simp)
    (by intro a ha; rw [List.mem_singleton] at ha; rw [ha]; norm_num)
    (by simp)⟩

/-- C7 counterexample: with `num_iters = 0` the Lanczos loop executes zero
iterations — "always runs at least one iteration" fails. -/
theorem claim_C7_counterexample :
    (tri_diag_loop 1 (fun v => v) (fun q => q) (fun _ => 1) 1 0).2 = 0 := by
  have hcond : tri_diag_cond_func (n := 1) 1 0
      (tri_diag_init 1 (fun q => q) (fun _ => 1)) = false := by
    rw [tri_diag_cond_func]
    simp [tri_diag_init]
  rw [tri_diag_loop, boundedWhileLoop, hcond]
  simp

/-- C7 (amended): the Lanczos loop executes at most `num_iters` iterations;
its final state fails the loop condition, which is false exactly when the
budget is exhausted (`t > num_iters`) or the most recent off-diagonal entry
is at most `eps` away from the first iteration; and provided `num_iters ≥ 1`
it always runs at least one iteration regardless of the off-diagonal
values. -/
theorem claim_C7_amended (n : ℕ) (M : (Fin n → ℚ) → Fin n → ℚ)
    (sqrtQ : ℚ → ℚ) (gauss : Fin n → ℚ) (eps : ℚ) (num_iters : ℕ) :
    (tri_diag_loop n M sqrtQ gauss eps num_iters).2 ≤ num_iters ∧
    tri_diag_cond_func eps num_iters
      (tri_diag_loop n M sqrtQ gauss eps num_iters).1 = false ∧
    (∀ s : TriDiagState n, tri_diag_cond_func eps num_iters s = false ↔
      (num_iters < s.t ∨ (s.t ≠ 1 ∧ s.off_diag s.t ≤ eps))) ∧
    (1 ≤ num_iters → 1 ≤ (tri_diag_loop n M sqrtQ gauss eps num_iters).2) :=
  ⟨tri_diag_loop_steps_le n M sqrtQ gauss eps num_iters,
   tri_diag_loop_cond_false n M sqrtQ gauss eps num_iters,
   fun s => tri_diag_cond_false_iff eps num_iters s,
   fun h => tri_diag_loop_steps_pos n M sqrtQ gauss eps num_iters h⟩

/-- Witness for C7 at a concrete instance with budget `1`. -/
theorem claim_C7_witness :
    (tri_diag_loop 1 (fun v => v) (fun q => q) (fun _ => 1) 1 1).2 ≤ 1 ∧
    1 ≤ (tri_diag_loop 1 (fun v => v) (fun q => q) (fun _ => 1) 1 1).2 :=
  ⟨(claim_C7_amended 1 (fun v => v) (fun q => q) (fun _ => 1) 1 1).1,
   (claim_C7_amended 1 (fun v => v) (fun q => q) (fun _ => 1) 1 1).2.2.2
     (le_refl 1)⟩


/-- C10: for every input, `specbm` as written never produces a converged
solver result: it always terminates inside debug code (lines 362-373, with
`body_func` itself ending in `embed()` / `exit()` at lines 268-269), and the
one `return` statement of the function (line 398, unreachable) yields the
constant zero matrix / zero vector pair independent of the problem data; the
outer loop over `cond_func` / `body_func` (line 359) is never invoked. -/
theorem claim_C10_debug_exit {n m k_curr k_past : ℕ}
    (C_matvec : (Fin n → ℚ) → Fin n → ℚ)
    (A_operator_slim : (Fin n → ℚ) → Fin m → ℚ)
    (A_adjoint_slim : (Fin m → ℚ) → (Fin n → ℚ) → Fin n → ℚ)
    (eighK : Matrix (Fin (k_curr + k_past)) (Fin (k_curr + k_past)) ℚ →
      (Fin (k_curr + k_past) → ℚ) ×
        Matrix (Fin (k_curr + k_past)) (Fin (k_curr + k_past)) ℚ)
    (sqrtQ : ℚ → ℚ)
    (eigenOracle1 : (Fin m → ℚ) → (Fin 1 → ℚ) × Matrix (Fin n) (Fin 1) ℚ)
    (X : Matrix (Fin n) (Fin n) ℚ) (y z : Fin m → ℚ) (primal_obj : ℚ)
    (V : Matrix (Fin n) (Fin (k_curr + k_past)) ℚ)
    (trace_ub : ℚ) (b : Fin m → ℚ) (rho beta eps : ℚ) (max_iters : ℕ)
    (apgd_step_size : ℚ) (apgd_max_iters : ℕ) (apgd_eps : ℚ)
    (state1 : StateStruct n m (k_curr + k_past)) :
    (∃ e p, specbm C_matvec A_operator_slim A_adjoint_slim eighK sqrtQ
      eigenOracle1 X y z primal_obj V trace_ub b rho beta eps max_iters
      apgd_step_size apgd_max_iters apgd_eps state1 =
        SpecbmResult.debugExit e p) ∧
    specbm_dead_return n m = SpecbmResult.returned 0 0 :=
  ⟨⟨_, _, rfl⟩, rfl⟩

/-- C9: `initialize_state` raises `ValueError` exactly when `sketch_dim` is
zero or negative other than the sentinel `-1` (the check runs before any
state is built); `sketch_dim = -1` selects the dense primal (`X` present,
no sketch), and `sketch_dim > 0` selects the sketch (`Omega` and `P` of
shape `n × sketch_dim`, no dense `X`). -/
theorem claim_C9_sketch_dim (C : BCOOMat) (sqrtQ : ℚ → ℚ)
    (gauss : ℕ → ℕ → ℚ) :
    (∀ sketch_dim : ℤ,
      ((∃ e, initialize_state C sketch_dim sqrtQ gauss = Except.error e) ↔
        (sketch_dim = 0 ∨ (sketch_dim < 0 ∧ sketch_dim ≠ -1)))) ∧
    (∃ st, initialize_state C (-1) sqrtQ gauss = Except.ok st ∧
      st.X.isSome = true ∧ st.Omega = none ∧ st.P = none) ∧
    (∀ sketch_dim : ℤ, 0 < sketch_dim →
      ∃ st, initialize_state C sketch_dim sqrtQ gauss = Except.ok st ∧
        st.X = none ∧
        (∃ a, st.Omega = some a ∧ a.rows = C.shape ∧
          a.cols = sketch_dim.toNat) ∧
        (∃ a, st.P = some a ∧ a.rows = C.shape ∧
          a.cols = sketch_dim.toNat)) :=
  ⟨fun sd => initialize_state_error_iff C sd sqrtQ gauss,
   initialize_state_dense C sqrtQ gauss,
   fun sd h => initialize_state_sketch C sd sqrtQ gauss h⟩

/-- Witness for C9: the error case at `sketch_dim = 0` and the sketch case at
`sketch_dim = 2`, on a concrete one-vertex problem. -/
theorem claim_C9_witness :
    (∃ e, initialize_state (BCOOMat.mk 1 [] []) 0 (fun q => q)
      (fun _ _ => 0) = Except.error e) ∧
    (∃ st, initialize_state (BCOOMat.mk 1 [] []) 2 (fun q => q)
        (fun _ _ => 0) = Except.ok st ∧
      st.X = none ∧
      (∃ a, st.Omega = some a ∧ a.rows = (BCOOMat.mk 1 [] []).shape ∧
        a.cols = (2 : ℤ).toNat) ∧
      (∃ a, st.P = some a ∧ a.rows = (BCOOMat.mk 1 [] []).shape ∧
        a.cols = (2 : ℤ).toNat)) :=
  ⟨((claim_C9_sketch_dim (BCOOMat.mk 1 [] []) (fun q => q)
      (fun _ _ => 0)).1 0).mpr (Or.inl rfl),
   (claim_C9_sketch_dim (BCOOMat.mk 1 [] []) (fun q => q)
      (fun _ _ => 0)).2.2 2 (by norm_num)⟩

/-- `getD` through a mapped zip: entrywise `(z / SCALE_A) / SCALE_X`. -/
theorem zip_map_div_getD (z SCALE_A : List ℚ) (SCALE_X : ℚ) {k : ℕ}
    (hk : k < z.length) (hk2 : k < SCALE_A.length) :
    ((z.zip SCALE_A).map (fun p => p.1 / p.2 / SCALE_X)).getD k 0 =
      z.getD k 0 / SCALE_A.getD k 0 / SCALE_X := by
  have hlen : k <
      ((z.zip SCALE_A).map (fun p => p.1 / p.2 / SCALE_X)).length := by
    simp only [List.length_map, List.length_zip]
    omega
  rw [List.getD_eq_getElem _ _ hlen, List.getElem_map, List.getElem_zip,
    List.getD_eq_getElem _ _ hk, List.getD_eq_getElem _ _ hk2]

/-- C8: warm-start re-indexing (lines 177-178 of
src/scripts/warm_start_qap_specbm.py) scatters the old duals and slacks into
zero-initialized length-`m` arrays at the positions given by the constraint
index map: position `cmap k` receives the old value at `k` (with the slack
rescaled by `1 / SCALE_A / SCALE_X`), and every position outside the image
of the map holds zero.  The map is assumed injective on the old constraint
range, as the scatter semantics would otherwise drop values. -/
theorem claim_C8_warm_start_scatter (cmap : ℕ → ℕ) (old_m : ℕ)
    (y z SCALE_A : List ℚ) (SCALE_X : ℚ)
    (hy : y.length = old_m) (hz : z.length = old_m)
    (hsa : SCALE_A.length = old_m)
    (hinj : ((List.range old_m).map cmap).Nodup) :
    (∀ k, k < old_m →
      warm_start_y cmap old_m y (cmap k) = y.getD k 0 ∧
      warm_start_z cmap old_m z SCALE_A SCALE_X (cmap k) =
        z.getD k 0 / SCALE_A.getD k 0 / SCALE_X) ∧
    (∀ j, (∀ k, k < old_m → cmap k ≠ j) →
      warm_start_y cmap old_m y j = 0 ∧
      warm_start_z cmap old_m z SCALE_A SCALE_X j = 0) := by
  constructor
  · intro k hk
    have hik : k < ((List.range old_m).map cmap).length := by simpa using hk
    have hidx : ((List.range old_m).map cmap).getD k 0 = cmap k :=
      range_map_getD cmap hk 0
    constructor
    · rw [warm_start_y, ← hidx]
      rw [scatter_set_at _ _ hinj (by simp [hy]) hik]
    · rw [warm_start_z, ← hidx]
      rw [scatter_set_at _ _ hinj (by simp [hz, hsa]) hik]
      exact zip_map_div_getD z SCALE_A SCALE_X (by omega) (by omega)
  · intro j hj
    have hnm : j ∉ (List.range old_m).map cmap := by
      simp only [List.mem_map, List.mem_range, not_exists]
      rintro k ⟨hk, hkj⟩
      exact hj k hk hkj
    exact ⟨scatter_set_not_mem _ _ _ hnm, scatter_set_not_mem _ _ _ hnm⟩

/-- The constraint index map built by `fill_constraint_index_map` on a
concrete pair of constraint lists: old constraint `0` (on matrix cell
`(5, 5)`) matches new constraint `1`, and old constraint `1` (cell `(7, 8)`)
matches new constraint `2`. -/
def c8map : ℕ → ℕ :=
  fill_constraint_index_map [(0, 5, 5), (1, 7, 8)]
    [(0, 3, 3), (1, 5, 5), (2, 7, 8)]

/-- Witness for C8 on the concrete index map `c8map`. -/
theorem claim_C8_witness :
    (∀ k, k < 2 →
      warm_start_y c8map 2 [3, 4] (c8map k) = [3, 4].getD k 0 ∧
      warm_start_z c8map 2 [5, 6] [1, 2] (1 / 2) (c8map k) =
        [5, 6].getD k 0 / [1, 2].getD k 0 / (1 / 2)) ∧
    (∀ j, (∀ k, k < 2 → c8map k ≠ j) →
      warm_start_y c8map 2 [3, 4] j = 0 ∧
      warm_start_z c8map 2 [5, 6] [1, 2] (1 / 2) j = 0) :=
  claim_C8_warm_start_scatter c8map 2 [3, 4] [5, 6] [1, 2] (1 / 2)
    rfl rfl rfl (by decide)

/-- C5: in the `body_func` state update, the candidate dual pair is accepted
(serious step) exactly when
`beta * (pen_dual_obj - lb_spec_est) <= pen_dual_obj - cand_pen_dual_obj`
(lines 294-298); on a null step the previous `y` and `pen_dual_obj` are kept,
and in both cases the bundle quantities (`V`, `X_bar`, `z_bar`,
`bar_primal_obj`, the new lower-bound estimate) are updated and `t`
advances. -/
theorem claim_C5_serious_step {n m k_curr k_past : ℕ} (hkc : 0 < k_curr)
    (C_matvec : (Fin n → ℚ) → Fin n → ℚ)
    (A_operator_slim : (Fin n → ℚ) → Fin m → ℚ)
    (eighK : Matrix (Fin (k_curr + k_past)) (Fin (k_curr + k_past)) ℚ →
      (Fin (k_curr + k_past) → ℚ) ×
        Matrix (Fin (k_curr + k_past)) (Fin (k_curr + k_past)) ℚ)
    (eigenOracle : (Fin m → ℚ) →
      (Fin k_curr → ℚ) × Matrix (Fin n) (Fin k_curr) ℚ)
    (sqrtQ : ℚ → ℚ) (b : Fin m → ℚ) (trace_ub rho beta : ℚ)
    (state : StateStruct n m (k_curr + k_past)) (eta : ℚ)
    (S : Matrix (Fin (k_curr + k_past)) (Fin (k_curr + k_past)) ℚ) :
    (beta * (state.pen_dual_obj - (body_computed hkc C_matvec A_operator_slim eighK
      eigenOracle sqrtQ b trace_ub rho state eta S).lb_spec_est) ≤
        state.pen_dual_obj - (body_computed hkc C_matvec A_operator_slim eighK
      eigenOracle sqrtQ b trace_ub rho state eta S).cand_pen_dual_obj →
      (body_func_update hkc C_matvec A_operator_slim eighK
      eigenOracle sqrtQ b trace_ub rho beta state eta S).y = (body_computed hkc C_matvec A_operator_slim eighK
      eigenOracle sqrtQ b trace_ub rho state eta S).y_cand ∧
      (body_func_update hkc C_matvec A_operator_slim eighK
      eigenOracle sqrtQ b trace_ub rho beta state eta S).pen_dual_obj = (body_computed hkc C_matvec A_operator_slim eighK
      eigenOracle sqrtQ b trace_ub rho state eta S).cand_pen_dual_obj) ∧
    (¬ (beta * (state.pen_dual_obj - (body_computed hkc C_matvec A_operator_slim eighK
      eigenOracle sqrtQ b trace_ub rho state eta S).lb_spec_est) ≤
        state.pen_dual_obj - (body_computed hkc C_matvec A_operator_slim eighK
      eigenOracle sqrtQ b trace_ub rho state eta S).cand_pen_dual_obj) →
      (body_func_update hkc C_matvec A_operator_slim eighK
      eigenOracle sqrtQ b trace_ub rho beta state eta S).y = state.y ∧
      (body_func_update hkc C_matvec A_operator_slim eighK
      eigenOracle sqrtQ b trace_ub rho beta state eta S).pen_dual_obj = state.pen_dual_obj) ∧
    (body_func_update hkc C_matvec A_operator_slim eighK
      eigenOracle sqrtQ b trace_ub rho beta state eta S).V = (body_computed hkc C_matvec A_operator_slim eighK
      eigenOracle sqrtQ b trace_ub rho state eta S).V_next ∧
    (body_func_update hkc C_matvec A_operator_slim eighK
      eigenOracle sqrtQ b trace_ub rho beta state eta S).X_bar = (body_computed hkc C_matvec A_operator_slim eighK
      eigenOracle sqrtQ b trace_ub rho state eta S).X_bar_next ∧
    (body_func_update hkc C_matvec A_operator_slim eighK
      eigenOracle sqrtQ b trace_ub rho beta state eta S).z_bar = (body_computed hkc C_matvec A_operator_slim eighK
      eigenOracle sqrtQ b trace_ub rho state eta S).z_bar_next ∧
    (body_func_update hkc C_matvec A_operator_slim eighK
      eigenOracle sqrtQ b trace_ub rho beta state eta S).bar_primal_obj = (body_computed hkc C_matvec A_operator_slim eighK
      eigenOracle sqrtQ b trace_ub rho state eta S).bar_primal_obj_next ∧
    (body_func_update hkc C_matvec A_operator_slim eighK
      eigenOracle sqrtQ b trace_ub rho beta state eta S).lb_spec_est = (body_computed hkc C_matvec A_operator_slim eighK
      eigenOracle sqrtQ b trace_ub rho state eta S).lb_spec_est ∧
    (body_func_update hkc C_matvec A_operator_slim eighK
      eigenOracle sqrtQ b trace_ub rho beta state eta S).t = state.t + 1 := by
  by_cases hs : beta * (state.pen_dual_obj - (body_computed hkc C_matvec A_operator_slim eighK
      eigenOracle sqrtQ b trace_ub rho state eta S).lb_spec_est) ≤
      state.pen_dual_obj - (body_computed hkc C_matvec A_operator_slim eighK
      eigenOracle sqrtQ b trace_ub rho state eta S).cand_pen_dual_obj
  · refine ⟨fun _ => ⟨?_, ?_⟩, fun hn => absurd hs hn,
      rfl, rfl, rfl, rfl, rfl, rfl⟩
    · simp only [body_func_update]
      rw [if_pos hs]
    · simp only [body_func_update]
      rw [if_pos hs]
  · refine ⟨fun h => absurd h hs, fun _ => ⟨?_, ?_⟩,
      rfl, rfl, rfl, rfl, rfl, rfl⟩
    · simp only [body_func_update]
      rw [if_neg hs]
    · simp only [body_func_update]
      rw [if_neg hs]

/-- Witness for C5: a concrete serious step (with `beta = 0`, `trace_ub = 0`,
zero right-hand side and an all-zero state the serious-step inequality
holds, and the candidate dual pair is installed). -/
theorem claim_C5_witness :
    (body_func_update Nat.one_pos (fun v => v) (fun _ => fun _ => 0)
        (fun M => (fun c => M c c, 1))
        ((fun _ => (fun _ => 0, 0)) :
          (Fin 1 → ℚ) → (Fin 1 → ℚ) × Matrix (Fin 1) (Fin 1) ℚ)
        (fun q => q) (fun _ => 0) 0 1 0
        (StateStruct.mk 0 0 0 0 0 0 0 0 0 0 0 0 : StateStruct 1 1 (1 + 0))
        0 0).y =
      (body_computed Nat.one_pos (fun v => v) (fun _ => fun _ => 0)
        (fun M => (fun c => M c c, 1))
        ((fun _ => (fun _ => 0, 0)) :
          (Fin 1 → ℚ) → (Fin 1 → ℚ) × Matrix (Fin 1) (Fin 1) ℚ)
        (fun q => q) (fun _ => 0) 0 1
        (StateStruct.mk 0 0 0 0 0 0 0 0 0 0 0 0 : StateStruct 1 1 (1 + 0))
        0 0).y_cand ∧
    (body_func_update Nat.one_pos (fun v => v) (fun _ => fun _ => 0)
        (fun M => (fun c => M c c, 1))
        ((fun _ => (fun _ => 0, 0)) :
          (Fin 1 → ℚ) → (Fin 1 → ℚ) × Matrix (Fin 1) (Fin 1) ℚ)
        (fun q => q) (fun _ => 0) 0 1 0
        (StateStruct.mk 0 0 0 0 0 0 0 0 0 0 0 0 : StateStruct 1 1 (1 + 0))
        0 0).pen_dual_obj =
      (body_computed Nat.one_pos (fun v => v) (fun _ => fun _ => 0)
        (fun M => (fun c => M c c, 1))
        ((fun _ => (fun _ => 0, 0)) :
          (Fin 1 → ℚ) → (Fin 1 → ℚ) × Matrix (Fin 1) (Fin 1) ℚ)
        (fun q => q) (fun _ => 0) 0 1
        (StateStruct.mk 0 0 0 0 0 0 0 0 0 0 0 0 : StateStruct 1 1 (1 + 0))
        0 0).cand_pen_dual_obj := by
  have hc : (body_computed Nat.one_pos (fun v => v) (fun _ => fun _ => 0)
        (fun M => (fun c => M c c, 1))
        ((fun _ => (fun _ => 0, 0)) :
          (Fin 1 → ℚ) → (Fin 1 → ℚ) × Matrix (Fin 1) (Fin 1) ℚ)
        (fun q => q) (fun _ => 0) 0 1
        (StateStruct.mk 0 0 0 0 0 0 0 0 0 0 0 0 : StateStruct 1 1 (1 + 0))
        0 0).cand_pen_dual_obj = 0 := by
    simp [body_computed, dotQ]
  refine (claim_C5_serious_step Nat.one_pos (fun v => v) (fun _ => fun _ => 0)
    (fun M => (fun c => M c c, 1))
    ((fun _ => (fun _ => 0, 0)) :
      (Fin 1 → ℚ) → (Fin 1 → ℚ) × Matrix (Fin 1) (Fin 1) ℚ)
    (fun q => q) (fun _ => 0) 0 1 0
    (StateStruct.mk 0 0 0 0 0 0 0 0 0 0 0 0 : StateStruct 1 1 (1 + 0))
    0 0).1 ?_
  rw [hc]
  simp

/-- A loop with fuel `1` whose condition holds initially runs its body
once. -/
theorem boundedWhileLoop_one_step {σ : Type*} (cond : σ → Bool)
    (body : σ → σ) (s : σ) (hc : cond s = true) :
    boundedWhileLoop cond body 1 s = (body s, 1) := by
  simp [boundedWhileLoop, hc]

theorem ofFn_fin_one (f : Fin 1 → ℚ) : List.ofFn f = [f 0] := by
  simp [List.ofFn_succ]

/-- The eigendecomposition oracle on `1 × 1` matrices: the single entry is
the eigenvalue, the eigenvector matrix is the identity. -/
def c2eigh : Matrix (Fin 1) (Fin 1) ℚ →
    (Fin 1 → ℚ) × Matrix (Fin 1) (Fin 1) ℚ :=
  fun M => (fun _ => M 0 0, 1)

/-- A concrete `solve_subproblem` run: one-dimensional instance with zero
cost and constraint operators, `b = 0`, `trace_ub = 1`, `rho = 1`,
`bar_primal_obj = -2`, `z_bar = 0`, `tr_X_bar = 2`, `y = 0`, `V = 1`, one
APGD iteration of step size `1` at tolerance `1 / 100`. -/
def c2solve : ℚ × Matrix (Fin 1) (Fin 1) ℚ :=
  solve_subproblem (fun _ => fun _ => 0) (fun _ => fun _ => 0)
    (fun _ => fun _ => fun _ => 0) c2eigh (fun q => q)
    ((fun _ => 0) : Fin 1 → ℚ) 1 1 (-2) (fun _ => 0) 2 (fun _ => 0)
    (1 : Matrix (Fin 1) (Fin 1) ℚ) 1 1 (1 / 100)

/-- C2 counterexample: the trace budget of `solve_subproblem` does not
involve `trace(X_bar)`.  On `c2solve` (where `tr_X_bar = 2` and
`trace_ub = 1`) the returned pair has `trace(S) + eta * tr_X_bar = 2`,
exceeding `trace_ub = 1`: the gradient step drives `eta` towards `2`, the
simplex projection caps `trace(S) + eta` (not `trace(S) + eta * tr_X_bar`)
at `trace_ub`, and the `eta / tr_X_bar` normalization of line 100 is
commented out in the source. -/
theorem claim_C2_counterexample :
    ¬ (c2solve.2.trace + c2solve.1 * 2 ≤ 1) := by
  have hc : (fun s : APGDState 1 =>
      decide (s.max_value_change > (1 / 100 : ℚ))) (APGDState.mk 0 0 0 0 0 ((11 / 10) * (1 / 100))) = true := by
    norm_num
  have hloop : boundedWhileLoop
      (fun s : APGDState 1 => decide (s.max_value_change > (1 / 100 : ℚ)))
      (apgd (fun _ => fun _ => 0) (fun _ => fun _ => 0)
      (fun _ => fun _ => fun _ => 0) c2eigh (fun q => q)
      ((fun _ => 0) : Fin 1 → ℚ) 1 1 (-2) (fun _ => 0) (fun _ => 0)
      (1 : Matrix (Fin 1) (Fin 1) ℚ) 1) 1 (APGDState.mk 0 0 0 0 0 ((11 / 10) * (1 / 100))) =
      (apgd (fun _ => fun _ => 0) (fun _ => fun _ => 0)
      (fun _ => fun _ => fun _ => 0) c2eigh (fun q => q)
      ((fun _ => 0) : Fin 1 → ℚ) 1 1 (-2) (fun _ => 0) (fun _ => 0)
      (1 : Matrix (Fin 1) (Fin 1) ℚ) 1 (APGDState.mk 0 0 0 0 0 ((11 / 10) * (1 / 100))), 1) :=
    boundedWhileLoop_one_step _ _ _ hc
  have hsolve : c2solve =
      ((apgd (fun _ => fun _ => 0) (fun _ => fun _ => 0)
      (fun _ => fun _ => fun _ => 0) c2eigh (fun q => q)
      ((fun _ => 0) : Fin 1 → ℚ) 1 1 (-2) (fun _ => 0) (fun _ => 0)
      (1 : Matrix (Fin 1) (Fin 1) ℚ) 1 (APGDState.mk 0 0 0 0 0 ((11 / 10) * (1 / 100)))).eta_curr,
        (1 : ℚ) • (apgd (fun _ => fun _ => 0) (fun _ => fun _ => 0)
      (fun _ => fun _ => fun _ => 0) c2eigh (fun q => q)
      ((fun _ => 0) : Fin 1 → ℚ) 1 1 (-2) (fun _ => 0) (fun _ => 0)
      (1 : Matrix (Fin 1) (Fin 1) ℚ) 1 (APGDState.mk 0 0 0 0 0 ((11 / 10) * (1 / 100)))).S_curr) := by
    rw [c2solve]
    simp only [solve_subproblem]
    rw [hloop]
  have heta : (apgd (fun _ => fun _ => 0) (fun _ => fun _ => 0)
      (fun _ => fun _ => fun _ => 0) c2eigh (fun q => q)
      ((fun _ => 0) : Fin 1 → ℚ) 1 1 (-2) (fun _ => 0) (fun _ => 0)
      (1 : Matrix (Fin 1) (Fin 1) ℚ) 1 (APGDState.mk 0 0 0 0 0 ((11 / 10) * (1 / 100)))).eta_curr = 1 := by
    simp only [apgd]
    norm_num [c2eigh, vmapCols, sumCols, colScale, dotQ, normSq,
    simplexStep, noProjectionNeeded, proj_simplex, simplexOffset, simplexIdx,
    rhoAux, weightedVals, wfun, sortDesc, List.insertionSort,
    List.orderedInsert, List.countP, List.countP.go, List.range,
    List.range.loop, Matrix.mul_apply, Matrix.smul_apply, Matrix.add_apply,
    Matrix.sub_apply, Matrix.transpose_apply, Matrix.one_apply,
    Matrix.zero_apply, Matrix.of_apply, Fin.sum_univ_one, ofFn_fin_one,
    List.getD_cons_zero, List.getD_cons_succ]
  have htr : ((1 : ℚ) • (apgd (fun _ => fun _ => 0) (fun _ => fun _ => 0)
      (fun _ => fun _ => fun _ => 0) c2eigh (fun q => q)
      ((fun _ => 0) : Fin 1 → ℚ) 1 1 (-2) (fun _ => 0) (fun _ => 0)
      (1 : Matrix (Fin 1) (Fin 1) ℚ) 1 (APGDState.mk 0 0 0 0 0 ((11 / 10) * (1 / 100)))).S_curr).trace = 0 := by
    simp only [apgd]
    norm_num [Matrix.trace, Matrix.diag, one_smul, c2eigh, vmapCols, sumCols, colScale, dotQ, normSq,
    simplexStep, noProjectionNeeded, proj_simplex, simplexOffset, simplexIdx,
    rhoAux, weightedVals, wfun, sortDesc, List.insertionSort,
    List.orderedInsert, List.countP, List.countP.go, List.range,
    List.range.loop, Matrix.mul_apply, Matrix.smul_apply, Matrix.add_apply,
    Matrix.sub_apply, Matrix.transpose_apply, Matrix.one_apply,
    Matrix.zero_apply, Matrix.of_apply, Fin.sum_univ_one, ofFn_fin_one,
    List.getD_cons_zero, List.getD_cons_succ]
  rw [hsolve]
  show ¬ (((1 : ℚ) • (apgd (fun _ => fun _ => 0) (fun _ => fun _ => 0)
      (fun _ => fun _ => fun _ => 0) c2eigh (fun q => q)
      ((fun _ => 0) : Fin 1 → ℚ) 1 1 (-2) (fun _ => 0) (fun _ => 0)
      (1 : Matrix (Fin 1) (Fin 1) ℚ) 1
      (APGDState.mk 0 0 0 0 0 ((11 / 10) * (1 / 100)))).S_curr).trace +
    (apgd (fun _ => fun _ => 0) (fun _ => fun _ => 0)
      (fun _ => fun _ => fun _ => 0) c2eigh (fun q => q)
      ((fun _ => 0) : Fin 1 → ℚ) 1 1 (-2) (fun _ => 0) (fun _ => 0)
      (1 : Matrix (Fin 1) (Fin 1) ℚ) 1
      (APGDState.mk 0 0 0 0 0 ((11 / 10) * (1 / 100)))).eta_curr * 2 ≤ 1)
  rw [htr, heta]
  norm_num

/-- C2 (amended): provided the eigendecomposition oracle returns matrices
with orthonormal columns and `trace_ub` is nonnegative, the pair `(eta, S)`
returned by `solve_subproblem` satisfies `trace(S) + eta * trace_ub ≤
trace_ub` (the budget is against `trace_ub` itself, not against
`trace(X_bar)`), and `S` is positive semidefinite up to the `-1e-6`
projection tolerance scaled by `trace_ub`. -/
theorem claim_C2_amended {n m K : ℕ}
    (C_matvec : (Fin n → ℚ) → Fin n → ℚ)
    (A_operator_slim : (Fin n → ℚ) → Fin m → ℚ)
    (A_adjoint_slim : (Fin m → ℚ) → (Fin n → ℚ) → Fin n → ℚ)
    (eighK : Matrix (Fin K) (Fin K) ℚ →
      (Fin K → ℚ) × Matrix (Fin K) (Fin K) ℚ)
    (sqrtQ : ℚ → ℚ)
    (b : Fin m → ℚ) (trace_ub rho bar_primal_obj : ℚ)
    (z_bar : Fin m → ℚ) (tr_X_bar : ℚ) (y : Fin m → ℚ)
    (V : Matrix (Fin n) (Fin K) ℚ)
    (apgd_step_size : ℚ) (apgd_max_iters : ℕ) (apgd_eps : ℚ)
    (horth : ∀ M, ((eighK M).2).transpose * (eighK M).2 = 1)
    (htub : 0 ≤ trace_ub) :
    (solve_subproblem C_matvec A_operator_slim A_adjoint_slim eighK
      sqrtQ b trace_ub rho bar_primal_obj z_bar tr_X_bar y V apgd_step_size
      apgd_max_iters apgd_eps).2.trace + (solve_subproblem C_matvec A_operator_slim A_adjoint_slim eighK
      sqrtQ b trace_ub rho bar_primal_obj z_bar tr_X_bar y V apgd_step_size
      apgd_max_iters apgd_eps).1 * trace_ub ≤ trace_ub ∧
    ∀ x : Fin K → ℚ, -(1 / 1000000) * trace_ub * normSq x ≤
      Matrix.dotProduct x ((solve_subproblem C_matvec A_operator_slim A_adjoint_slim eighK
      sqrtQ b trace_ub rho bar_primal_obj z_bar tr_X_bar y V apgd_step_size
      apgd_max_iters apgd_eps).2.mulVec x) := by
  have hinv : apgdTraceInv ((boundedWhileLoop
      (fun s : APGDState K => decide (s.max_value_change > apgd_eps))
      (apgd C_matvec A_operator_slim A_adjoint_slim eighK sqrtQ b trace_ub
        rho bar_primal_obj z_bar y V apgd_step_size)
      apgd_max_iters (APGDState.mk 0 0 0 0 0 ((11 / 10) * apgd_eps))).1) :=
    boundedWhileLoop_invariant _ _ apgdTraceInv apgd_max_iters
      (APGDState.mk 0 0 0 0 0 ((11 / 10) * apgd_eps))
      (apgd_init_inv apgd_eps)
      (fun t _ => apgd_inv C_matvec A_operator_slim A_adjoint_slim eighK
        sqrtQ b trace_ub rho bar_primal_obj z_bar y V apgd_step_size horth t)
  constructor
  · simp only [solve_subproblem]
    rw [Matrix.trace_smul, smul_eq_mul]
    nlinarith [hinv.1, htub, mul_le_mul_of_nonneg_left hinv.1 htub]
  · intro x
    simp only [solve_subproblem]
    rw [Matrix.smul_mulVec_assoc, Matrix.dotProduct_smul, smul_eq_mul]
    nlinarith [hinv.2 x, htub, mul_le_mul_of_nonneg_left (hinv.2 x) htub]

/-- Witness for C2 (amended) at the concrete instance `c2solve`. -/
theorem claim_C2_witness :
    c2solve.2.trace + c2solve.1 * 1 ≤ 1 ∧
    ∀ x : Fin 1 → ℚ, -(1 / 1000000) * 1 * normSq x ≤
      Matrix.dotProduct x (c2solve.2.mulVec x) :=
  claim_C2_amended (fun _ => fun _ => 0) (fun _ => fun _ => 0)
    (fun _ => fun _ => fun _ => 0) c2eigh (fun q => q)
    ((fun _ => 0) : Fin 1 → ℚ) 1 1 (-2) (fun _ => 0) 2 (fun _ => 0)
    (1 : Matrix (Fin 1) (Fin 1) ℚ) 1 1 (1 / 100)
    (fun M => by simp [c2eigh]) (by norm_num)

/-- A signed graph on 15 vertices with two positive edges `(0, 1)` and
`(1, 2)` of weight one: large enough (`rows = 15`) for
`create_sparse_laplacian` to take the randomized sparsification path. -/
def c6graph : Coo := Coo.mk [1, 1] [0, 1] [1, 2] 15 15

/-- A pseudoinverse oracle whose row `0` is `(1, 2, 0, 0, ...)`: it makes the
two effective resistances (hence the two sampling probabilities `1/5` and
`4/5`) nonzero. -/
def c6pinv : (ℕ → ℕ → ℚ) → ℕ → ℕ → ℚ :=
  fun _ => fun s t =>
    if s = 0 ∧ t = 0 then 1 else if s = 0 ∧ t = 1 then 2 else 0

/-- One ambient NumPy generator history: every `np.random.binomial` draw is
`1`, and the `np.random.multinomial(1, probs)` draw picks edge `0`
(counts `[1, 0]`). -/
def c6AmbA : ℕ → ℕ → ℕ → ℚ :=
  fun site _ j => if site = 2 then (if j = 0 then 1 else 0) else 1

/-- A second ambient generator history, identical except that the
multinomial draw picks edge `1` (counts `[0, 1]`). -/
def c6AmbB : ℕ → ℕ → ℕ → ℚ :=
  fun site _ j => if site = 2 then (if j = 1 then 1 else 0) else 1

set_option maxHeartbeats 2000000 in
/-- C6 counterexample: `create_sparse_laplacian` consults the ambient NumPy
generator (its `np.random.binomial` / `np.random.multinomial` calls take no
seed or `Generator`), so it is not a deterministic function of its inputs
and explicitly passed seeds.  On `c6graph` (15 vertices, at least the
threshold for the sparsification path) two generator histories that differ
only in which edge the multinomial draw keeps give different Laplacians at
entry `(0, 1)`: `-1` when edge `(0, 1)` is kept, `0` when edge `(1, 2)`
is. -/
theorem claim_C6_counterexample :
    create_sparse_laplacian c6graph 10 (fun _ => 27 / 10) (fun q => q)
        c6pinv c6AmbA 0 1 ≠
      create_sparse_laplacian c6graph 10 (fun _ => 27 / 10) (fun q => q)
        c6pinv c6AmbB 0 1 := by
  have h1 : (⌈(27 / 1000 : ℚ)⌉ : ℤ) = 1 := by
    rw [Int.ceil_eq_iff]
    norm_num
  have h2 : (⌈(81 / 400 : ℚ)⌉ : ℤ) = 1 := by
    rw [Int.ceil_eq_iff]
    norm_num
  norm_num [h1, h2, Int.toNat_one, create_sparse_laplacian, c6graph, c6pinv,
    c6AmbA, c6AmbB,
    Coo.toDense, mmul, tdense, Finset.sum_range_succ, Finset.sum_range_zero,
    List.range, List.range.loop, List.zip_cons_cons, List.filter_cons,
    List.filter_nil, List.map_cons, List.map_nil, List.length_cons,
    List.length_nil, List.sum_cons, List.sum_nil, List.getD_cons_zero,
    List.getD_cons_succ, Int.toNat_ofNat]

/-- C6 (amended): `create_sparse_laplacian` is deterministic on every graph
with fewer than 15 vertices (lines 385-387), where it returns the exact
signed Laplacian before any ambient `np.random` call.  On at least 15
vertices its output can depend on the ambient generator state — the
counterexample above exhibits such an input — though not on every such
input: when `num_sample_edges` reaches both edge counts (lines 414 and 428)
both sampling branches are skipped and the draws are irrelevant. -/
theorem claim_C6_amended (edge_weights : Coo) (eps : ℚ)
    (logQ sqrtQ : ℚ → ℚ) (pinv : (ℕ → ℕ → ℚ) → ℕ → ℕ → ℚ)
    (a1 a2 : ℕ → ℕ → ℕ → ℚ) (h : edge_weights.rows < 15) :
    create_sparse_laplacian edge_weights eps logQ sqrtQ pinv a1 =
      create_sparse_laplacian edge_weights eps logQ sqrtQ pinv a2 :=
  create_sparse_laplacian_small_deterministic edge_weights eps logQ sqrtQ
    pinv a1 a2 h

/-- Witness for C6 (amended): a two-vertex graph, two arbitrary ambient
generator histories. -/
theorem claim_C6_witness :
    create_sparse_laplacian (Coo.mk [1] [0] [1] 2 2) 1 (fun q => q)
        (fun q => q) (fun _ => fun _ _ => 0) (fun _ _ _ => 0) =
      create_sparse_laplacian (Coo.mk [1] [0] [1] 2 2) 1 (fun q => q)
        (fun q => q) (fun _ => fun _ _ => 0) (fun _ _ _ => 1) :=
  claim_C6_amended (Coo.mk [1] [0] [1] 2 2) 1 (fun q => q) (fun q => q)
    (fun _ => fun _ _ => 0) (fun _ _ _ => 0) (fun _ _ _ => 1) (by decide)

end SpecFW
